import Mathlib

/-!
Verification of the hybrid search engine of this repository against its
natural-language specification.

The development shallowly embeds the two core modules:

* `faiss_optimizer.py` — the `SearchCache` LRU/TTL result cache, the
  `FAISSOptimizer._match_filters` predicate and the result-processing loop of
  `FAISSOptimizer.search_optimized`;
* `enterprise_search.py` — tokenization (`_tokenize_advanced`), the keyword
  index builder (`_build_keyword_index`), the lexical scorer
  (`_calculate_advanced_score` and its helpers `_proximity_score`,
  `_filename_score`), the keyword branch (`_keyword_search_sync`), the vector
  branch (`_faiss_search_sync`), result fusion (`_merge_search_results`) and
  the orchestrator (`_parallel_search`), including its per-request result
  cache (`_cache_results`).

Modelling conventions:

* Python strings are modelled as `List Char` (`Str`).  Python's `str.lower`
  and the `\w` character class are Unicode-aware; they are modelled by Lean's
  ASCII `Char.toLower` / `Char.isAlphanum` extended with the Turkish letters
  that the source's regular expression lists explicitly.  All concrete inputs
  used below are ASCII, where the two coincide.
* Python floats are modelled as real numbers; `math.log` is `Real.log`.
  Sub-computations whose values are exact (counts, proximity weights,
  filename scores) are modelled in `ℚ` and cast into `ℝ` where they are
  summed with logarithmic terms.
* Python dicts are modelled as association lists with unique keys, preserving
  insertion order (`Assoc.find?` / `Assoc.update` / `Assoc.erase` mirror
  `d[k]`, `d[k] = v`, `del d[k]`); `min(d, key=d.get)` is `Assoc.minEntry`,
  which returns the first entry with minimal value, as Python's `min` does.
* `time.time()` / `datetime.now()` values are passed explicitly as `Nat`
  parameters to the cache operations.
* The FAISS index and the sentence-transformer encoder are external
  collaborators; `index.search` is an oracle parameter producing rows of
  (score, index) pairs, and the code consuming its output is embedded
  faithfully.
-/

set_option autoImplicit false

namespace DeepSearch

/-- Python strings, modelled as lists of characters. -/
abbrev Str := List Char

/-! ## Association lists: the model of Python dicts.

Python dicts preserve insertion order; assignment to an existing key keeps
its position, assignment to a fresh key appends, `del` removes the entry. -/

namespace Assoc

variable {κ β : Type} [DecidableEq κ]

/-- Model of `d[k]` / `k in d`: the value at the first entry with key `k`. -/
def find? (k : κ) : List (κ × β) → Option β
  | [] => none
  | (k', v) :: rest => if k' = k then some v else find? k rest

/-- Model of `d[k] = v`: update in place, or append a fresh entry. -/
def update (k : κ) (v : β) : List (κ × β) → List (κ × β)
  | [] => [(k, v)]
  | (k', v') :: rest => if k' = k then (k', v) :: rest else (k', v') :: update k v rest

/-- Model of `del d[k]`: remove the first entry with key `k`. -/
def erase (k : κ) : List (κ × β) → List (κ × β)
  | [] => []
  | (k', v') :: rest => if k' = k then rest else (k', v') :: erase k rest

/-- The key list of an association list, in insertion order. -/
def keys (l : List (κ × β)) : List κ := l.map Prod.fst

/-- Model of `min(d, key=d.get)`: the first entry whose `Nat` value is
minimal (Python's `min` keeps the earliest of several minima). -/
def minEntry (val : β → Nat) : List (κ × β) → Option (κ × β)
  | [] => none
  | (k, v) :: rest =>
    match minEntry val rest with
    | none => some (k, v)
    | some (k', v') => if val v ≤ val v' then some (k, v) else some (k', v')

end Assoc

/-! ## `SearchCache` (`faiss_optimizer.py`, lines 17–103).

An in-memory LRU cache with per-entry TTL.  `cache` maps a key to the pair
(results, creation timestamp); `access_times` maps a key to its last access
time.  Keys are the md5 digests produced by `_generate_key`, treated here as
an opaque key type `κ`; values are the cached result lists, treated as an
opaque value type `α`.  The current clock value is an explicit argument. -/

structure SearchCache (κ α : Type) where
  cache : List (κ × α × Nat)
  access_times : List (κ × Nat)
  max_size : Nat
  ttl_seconds : Nat
  hits : Nat
  misses : Nat
  evictions : Nat

namespace SearchCache

variable {κ α : Type} [DecidableEq κ]

/-- The cache produced by `SearchCache.__init__`. -/
def empty (max_size ttl_seconds : Nat) : SearchCache κ α :=
  ⟨[], [], max_size, ttl_seconds, 0, 0, 0⟩

/-- `SearchCache.get` (lines 42–61): a hit refreshes the access time; an
entry whose TTL has elapsed is deleted and counts as a miss. -/
def get (c : SearchCache κ α) (k : κ) (now : Nat) : Option α × SearchCache κ α :=
  match Assoc.find? k c.cache with
  | some (v, ts) =>
    if now - ts < c.ttl_seconds then
      (some v, { c with access_times := Assoc.update k now c.access_times, hits := c.hits + 1 })
    else
      (none, { c with cache := Assoc.erase k c.cache,
                      access_times := Assoc.erase k c.access_times,
                      misses := c.misses + 1 })
  | none => (none, { c with misses := c.misses + 1 })

/-- `SearchCache._evict_lru` (lines 75–83): remove the entry with the least
recent access time (the first such entry on ties). -/
def evictLru (c : SearchCache κ α) : SearchCache κ α :=
  match Assoc.minEntry id c.access_times with
  | none => c
  | some (lru, _) =>
    { c with cache := Assoc.erase lru c.cache,
             access_times := Assoc.erase lru c.access_times,
             evictions := c.evictions + 1 }

/-- `SearchCache.put` (lines 63–73): evict when at capacity, then store the
value with the current time as both creation and access time. -/
def put (c : SearchCache κ α) (k : κ) (v : α) (now : Nat) : SearchCache κ α :=
  let c1 := if c.max_size ≤ c.cache.length then c.evictLru else c
  { c1 with cache := Assoc.update k (v, now) c1.cache,
            access_times := Assoc.update k now c1.access_times }

/-- `SearchCache.clear` (lines 85–89). -/
def clear (c : SearchCache κ α) : SearchCache κ α :=
  { c with cache := [], access_times := [] }

/-- A sequence of `put` operations, one per (key, value, time) triple. -/
def putSeq (c : SearchCache κ α) (items : List (κ × α × Nat)) : SearchCache κ α :=
  items.foldl (fun c it => c.put it.1 it.2.1 it.2.2) c

/-- Well-formedness of a cache state: `cache` and `access_times` list the
same keys in the same order, without duplicates.  This holds for every state
reachable from `empty`. -/
def WF (c : SearchCache κ α) : Prop :=
  Assoc.keys c.cache = Assoc.keys c.access_times ∧ (Assoc.keys c.cache).Nodup

instance (c : SearchCache κ α) : Decidable c.WF := by unfold WF; infer_instance

end SearchCache

/-! ## The enterprise engine's internal result cache
(`EnterpriseSearchEngine._cache_results`, `enterprise_search.py`
lines 516–529).

`search_cache` maps a cache key to `{'results': …, 'timestamp': …}`.  The
eviction check runs only when the current size strictly exceeds
`cache_size`, and it removes the entry with the smallest timestamp. -/

def cacheResults {κ α : Type} [DecidableEq κ] (cache_size : Nat)
    (search_cache : List (κ × α × Nat)) (k : κ) (v : α) (now : Nat) :
    List (κ × α × Nat) :=
  let sc :=
    if cache_size < search_cache.length then
      match Assoc.minEntry (fun p => p.2) search_cache with
      | none => search_cache
      | some (oldest, _) => Assoc.erase oldest search_cache
    else search_cache
  Assoc.update k (v, now) sc

/-! ## Text primitives, modelling the Python string operations used by
`enterprise_search.py`. -/

/-- Model of `str.lower` (ASCII; see the header note on Unicode). -/
def toLowerStr (s : Str) : Str := s.map Char.toLower

/-- Helper for `splitWs`: accumulates the current word in reverse. -/
def splitWsAux : Str → Str → List Str
  | [], acc => if acc = [] then [] else [acc.reverse]
  | c :: cs, acc =>
    if c.isWhitespace then
      if acc = [] then splitWsAux cs [] else acc.reverse :: splitWsAux cs []
    else splitWsAux cs (c :: acc)

/-- Model of `str.split()` with no arguments: split on runs of whitespace,
producing no empty words. -/
def splitWs (s : Str) : List Str := splitWsAux s []

/-- Helper for `countSubstr`: counts non-overlapping occurrences of a
non-empty pattern, scanning left to right.  The recursion is bounded by a
fuel argument instantiated with the string length, which suffices because
every step consumes at least one character; structural recursion on the fuel
keeps the definition kernel-evaluable. -/
def countSubstrFuel (pat : Str) : Nat → Str → Nat
  | _, [] => 0
  | 0, _ :: _ => 0
  | fuel + 1, c :: cs =>
    if pat.isPrefixOf (c :: cs) then 1 + countSubstrFuel pat fuel (cs.drop (pat.length - 1))
    else countSubstrFuel pat fuel cs

/-- Model of `str.count`: non-overlapping occurrences; Python counts
`len(s) + 1` occurrences of the empty pattern. -/
def countSubstr (pat s : Str) : Nat :=
  if pat = [] then s.length + 1 else countSubstrFuel pat s.length s

/-- Model of `os.path.basename` on POSIX paths: the suffix after the last
slash. -/
def basename (p : Str) : Str := (p.reverse.takeWhile (fun c => c ≠ '/')).reverse

/-- Model of `' '.join(words)`. -/
def joinSpace : List Str → Str
  | [] => []
  | [w] => w
  | w :: ws => w ++ ' ' :: joinSpace ws

/-- The Turkish letters listed explicitly in the `_tokenize_advanced`
regular expression `[^\w\sÇĞıİÖŞÜçğıöşü]`. -/
def turkishLetters : List Char :=
  ['Ç', 'Ğ', 'ı', 'İ', 'Ö', 'Ş', 'Ü', 'ç', 'ğ', 'ı', 'ö', 'ş', 'ü']

/-- A character matched by `\w` or by the explicit Turkish-letter class. -/
def isWordChar (c : Char) : Bool := c.isAlphanum || c = '_' || turkishLetters.contains c

/-- The stop-word set of `_tokenize_advanced` (the source lists `'olan'`
twice; sets collapse the duplicate). -/
def stopWords : List Str :=
  ["ve", "bir", "bu", "da", "de", "ile", "için", "olan", "olarak"].map (·.toList)

/-- `EnterpriseSearchEngine._tokenize_advanced` (lines 189–199): replace
every character outside `\w`, whitespace and the Turkish letters by a space,
lower-case, split on whitespace, and drop words of length ≤ 2 and
stop words. -/
def tokenizeAdvanced (text : Str) : List Str :=
  let cleaned := text.map (fun c => if isWordChar c || c.isWhitespace then c else ' ')
  let words := splitWs (toLowerStr cleaned)
  words.filter (fun w => 2 < w.length && !(stopWords.contains w))

/-! ## `FAISSOptimizer` (`faiss_optimizer.py`, lines 105–298).

The FAISS index itself is an external collaborator: `index.search` produces
one row of (value, index) pairs for the query, modelled as an input list.
The repository builds the index as `faiss.IndexFlatIP` over L2-normalized
vectors (`embed_index.py`, lines 89–92), so the values FAISS returns are
inner products, in descending order (best match first). -/

/-- `FAISSOptimizer._match_filters` (lines 280–285): every filter key must
be present in the metadata with exactly the filter's value. -/
def matchFilters (metadata filters : List (Str × Str)) : Bool :=
  filters.all (fun kv =>
    match Assoc.find? kv.1 metadata with
    | some v => decide (v = kv.2)
    | none => false)

/-- A result dict produced by `FAISSOptimizer.search_optimized` (lines
215–224).  The numeric pass-through fields `start_pos`/`end_pos` play no
role in any claim and are omitted; metadata values are modelled as strings
(they are only compared for equality by `_match_filters`). -/
structure OptSearchResult where
  rank : Nat
  similarity : ℝ
  file_path : Str
  chunk_text : Str
  chunk_id : Str
  metadata : List (Str × Str)

/-- Model of Python list indexing `l[i]`: negative indices wrap; an index
out of range raises (modelled as `none`). -/
def pyGet {β : Type} (l : List β) (i : Int) : Option β :=
  if 0 ≤ i then l.get? i.toNat
  else if 0 ≤ (l.length : Int) + i then l.get? ((l.length : Int) + i).toNat
  else none

/-- The metadata dict keys read by the result-building loops. -/
def filePathKey : Str := "file_path".toList

def chunkTextKey : Str := "chunk_text".toList

def chunkIdKey : Str := "chunk_id".toList

/-- The result-processing loop of `FAISSOptimizer.search_optimized` (lines
206–225) over the enumerated FAISS rows `(i, distance, idx)`: rows with
`idx == -1` or `idx ≥ len(metadata)` are skipped, rows failing the filters
are skipped, and each kept row reports `similarity = 1 - distance`.  An
out-of-range metadata access (an exception inside the `try`) yields `none`;
the caller then returns the empty list. -/
def processRows (metadata : List (List (Str × Str))) (filters : List (Str × Str)) :
    List (Nat × ℝ × Int) → Option (List OptSearchResult)
  | [] => some []
  | (i, distance, idx) :: rest =>
    if idx ≠ -1 ∧ idx < (metadata.length : Int) then
      match pyGet metadata idx with
      | none => none
      | some m =>
        if filters ≠ [] ∧ matchFilters m filters = false then
          processRows metadata filters rest
        else
          (processRows metadata filters rest).map (fun rs =>
            { rank := i + 1, similarity := 1 - distance,
              file_path := (Assoc.find? filePathKey m).getD [],
              chunk_text := (Assoc.find? chunkTextKey m).getD [],
              chunk_id := (Assoc.find? chunkIdKey m).getD [],
              metadata := m } :: rs)
    else processRows metadata filters rest

/-- The result list `search_optimized` produces from the FAISS row
`rows` (before caching): the processed rows, or `[]` when the processing
loop raised. -/
def searchOptimizedResults (metadata : List (List (Str × Str)))
    (filters : List (Str × Str)) (rows : List (ℝ × Int)) : List OptSearchResult :=
  match processRows metadata filters (rows.enum.map (fun p => (p.1, p.2.1, p.2.2))) with
  | some rs => rs
  | none => []

/-! ## `EnterpriseSearchEngine` (`enterprise_search.py`).

The engine state read by the search path: the keyword corpus and
document-frequency map built by `_build_keyword_index`, and the FAISS
branch's external collaborators. -/

/-- A corpus entry of `document_corpus[file_path]` (lines 164–170): the
lower-cased text used for scoring together with the original text used for
snippets. -/
structure Chunk where
  chunk_id : Str
  text : Str
  original_text : Str
deriving DecidableEq

/-- The metadata entry fields read by `_faiss_search_sync` (lines 429–434). -/
structure FaissMeta where
  file_path : Str
  text : Str
  chunk_id : Str
deriving DecidableEq

/-- The state of `EnterpriseSearchEngine` consumed by `_parallel_search`.
`faissAvailable` models `self.faiss_index is not None and self.model is not
None`; `faissIndexSearch` is the external `index.search` oracle returning
the (score, index) row for the encoded query. -/
structure Engine where
  corpus : List (Str × List Chunk)
  docFreqs : List (Str × Nat)
  faissAvailable : Bool
  faissIndexSearch : Str → Nat → List (ℝ × Int)
  faissMetadata : List FaissMeta

/-- The `'search_type'` metadata key and its two values, and the relevance
factor keys. -/
def searchTypeKey : Str := "search_type".toList

def keywordTag : Str := "keyword".toList

def faissTag : Str := "faiss".toList

def keywordMatchKey : Str := "keyword_match".toList

def fileNameMatchKey : Str := "file_name_match".toList

def embeddingSimKey : Str := "embedding_similarity".toList

/-- A `SearchResult` dataclass instance (lines 21–33), restricted to the
fields the search path sets and reads. -/
structure SearchResult where
  file_path : Str
  snippet : Str
  score : ℝ
  chunk_id : Option Str
  metadata : List (Str × Str)
  relevance_factors : List (Str × ℝ)

/-- The positions list `[j for j, w in enumerate(text_words) if w == word]`
of `_proximity_score` (lines 379–380). -/
def positionsOf (w : Str) (text_words : List Str) : List Nat :=
  (text_words.enum.filter (fun p => decide (p.2 = w))).map Prod.fst

/-- The minimal distance `min(abs(p1 - p2) …)` over two non-empty position
lists (0 on empty input, which the caller guards against). -/
def minPairDist (positions1 positions2 : List Nat) : Nat :=
  ((positions1.map (fun a => positions2.map (fun b => Nat.dist a b))).flatten).min?.getD 0

/-- The contribution of one ordered pair of query words in
`_proximity_score` (lines 377–385). -/
def pairProximity (text_words : List Str) (w1 w2 : Str) : ℚ :=
  let positions1 := positionsOf w1 text_words
  let positions2 := positionsOf w2 text_words
  if positions1 ≠ [] ∧ positions2 ≠ [] then
    let min_distance := minPairDist positions1 positions2
    if min_distance ≤ 5 then 1 / ((min_distance : ℚ) + 1) else 0
  else 0

/-- The nested loop of `_proximity_score`: every ordered pair `(word1,
word2)` with `word2` occurring after `word1` in the query word list. -/
def proximityPairsSum (text_words : List Str) : List Str → ℚ
  | [] => 0
  | w1 :: rest => (rest.map (pairProximity text_words w1)).sum + proximityPairsSum text_words rest

/-- `EnterpriseSearchEngine._proximity_score` (lines 370–387). -/
def proximityScore (query_words text_words : List Str) : ℚ :=
  if query_words.length < 2 then 0 else proximityPairsSum text_words query_words

/-- `EnterpriseSearchEngine._filename_score` (lines 389–403): 2.0 when the
lowered query is a substring of the lowered basename, else the fraction of
query words occurring in the basename. -/
def filenameScore (query file_path : Str) : ℚ :=
  let filename := toLowerStr (basename file_path)
  let query_lower := toLowerStr query
  if query_lower <:+: filename then 2
  else
    let query_words := splitWs query_lower
    if query_words = [] then 0
    else (query_words.countP (fun w => decide (w <:+: filename)) : ℚ) / (query_words.length : ℚ)

/-- The multi-word coverage bonus of `_calculate_advanced_score` (lines
363–366). -/
def multiWordBonus (query_words : List Str) (text : Str) : ℚ :=
  if 1 < query_words.length then
    ((query_words.countP (fun w => decide (w <:+: text)) : ℚ) / (query_words.length : ℚ)) * (3 / 2)
  else 0

/-- The per-term TF·IDF accumulation loop of `_calculate_advanced_score`
(lines 343–355), written as the sum of the per-word contributions:
`tf = text.count(word) / len(text.split())`,
`idf = log(len(document_corpus) / document_frequencies.get(word, 1))`,
contributing `tf * idf * 2` for each word with a positive count. -/
noncomputable def tfidfScore (e : Engine) (query_words : List Str) (text : Str)
    (text_words : List Str) : ℝ :=
  (query_words.map (fun query_word =>
    let word_count := countSubstr query_word text
    if 0 < word_count then
      let tf : ℚ := (word_count : ℚ) / (text_words.length : ℚ)
      let total_docs := e.corpus.length
      let doc_freq := (Assoc.find? query_word e.docFreqs).getD 1
      let idf : ℝ := Real.log ((total_docs : ℝ) / (doc_freq : ℝ))
      (tf : ℝ) * idf * 2
    else 0)).sum

/-- `EnterpriseSearchEngine._calculate_advanced_score` (lines 333–368): the
sum of the exact-phrase bonus, the per-term TF·IDF score, the proximity
score, half the filename score, and the multi-word coverage bonus. -/
noncomputable def calculateAdvancedScore (e : Engine) (query_words : List Str)
    (text : Str) (file_path : Str) : ℝ :=
  let text_words := splitWs text
  let query_phrase := joinSpace query_words
  let phraseBonus : ℚ := if query_phrase <:+: text then 10 else 0
  let wordScore := tfidfScore e query_words text text_words
  let prox := proximityScore query_words text_words
  let fname := filenameScore (joinSpace query_words) file_path * (1 / 2)
  let multi := multiWordBonus query_words text
  (phraseBonus : ℝ) + wordScore + (prox : ℝ) + (fname : ℝ) + (multi : ℝ)

/-- The snippet-window score `sum(snippet.count(word) for word in words)` of
`_extract_snippet` (line 482). -/
def snippetScore (words : List Str) (snippet : Str) : Nat :=
  (words.map (fun w => countSubstr w snippet)).sum

/-- Python slice `s[i : i + len]`. -/
def sliceStr (s : Str) (i len : Nat) : Str := (s.drop i).take len

/-- Model of `str.strip()`. -/
def stripStr (s : Str) : Str :=
  ((s.dropWhile Char.isWhitespace).reverse.dropWhile Char.isWhitespace).reverse

def dotsStr : Str := "...".toList

/-- The best-window search of `_extract_snippet` (lines 476–485): candidate
positions `range(0, len(text) - max_length, 50)`, keeping the first window
with the strictly greatest score, defaulting to position 0. -/
def bestSnippetPos (text_lower : Str) (words : List Str) (max_length : Nat) : Nat :=
  let candidates : List Nat :=
    if max_length < text_lower.length then
      List.range' 0 ((text_lower.length - max_length + 49) / 50) 50
    else []
  (candidates.foldl (fun best i =>
      let sc := snippetScore words (sliceStr text_lower i max_length)
      if best.2 < sc then (i, sc) else best) ((0 : Nat), (0 : Nat))).1

/-- `EnterpriseSearchEngine._extract_snippet` (lines 471–496) with the
default window length 300. -/
def extractSnippet (text query : Str) : Str :=
  let max_length := 300
  let words := splitWs (toLowerStr query)
  let text_lower := toLowerStr text
  let best_pos := bestSnippetPos text_lower words max_length
  let snippet0 := sliceStr text best_pos max_length
  let snippet1 := if 0 < best_pos then dotsStr ++ snippet0 else snippet0
  let snippet2 := if best_pos + max_length < text.length then snippet1 ++ dotsStr else snippet1
  stripStr snippet2

/-- The per-document accumulator of `_keyword_search_sync` (lines 294–306):
the best chunk score seen so far with its chunk id and snippet. -/
structure DocScore where
  score : ℝ
  chunk_id : Option Str
  snippet : Str

/-- The body of the inner chunk loop of `_keyword_search_sync` (lines
299–306): keep the strictly better chunk. -/
noncomputable def scoreDocStep (e : Engine) (query_words : List Str) (query : Str)
    (file_path : Str) (best : DocScore) (c : Chunk) : DocScore :=
  let chunk_score := calculateAdvancedScore e query_words c.text file_path
  if best.score < chunk_score then
    { score := chunk_score, chunk_id := some c.chunk_id,
      snippet := extractSnippet c.original_text query }
  else best

/-- The inner chunk loop of `_keyword_search_sync`: fold over the document's
chunks keeping the first strictly-best chunk. -/
noncomputable def scoreDocument (e : Engine) (query_words : List Str) (query : Str)
    (file_path : Str) (chunks : List Chunk) : DocScore :=
  chunks.foldl (scoreDocStep e query_words query file_path)
    { score := 0, chunk_id := none, snippet := [] }

/-- A stable insertion sort, descending by `key`.  Python's `sorted`/`sort`
are stable; any two stable sorts with the same key agree, so this is a
faithful model of `sorted(…, key=…, reverse=True)`. -/
noncomputable def insertScoreDesc {β : Type} (key : β → ℝ) (x : β) : List β → List β
  | [] => [x]
  | y :: ys => if key y ≤ key x then x :: y :: ys else y :: insertScoreDesc key x ys

noncomputable def sortScoreDesc {β : Type} (key : β → ℝ) : List β → List β
  | [] => []
  | x :: xs => insertScoreDesc key x (sortScoreDesc key xs)

/-- `EnterpriseSearchEngine._keyword_search_sync` (lines 283–331): empty
token list short-circuits to `[]`; otherwise each document receives its best
chunk score, documents with positive score are sorted descending (stably)
and the top `top_k` become keyword-tagged results. -/
noncomputable def keywordSearchSync (e : Engine) (query : Str) (top_k : Nat) :
    List SearchResult :=
  let query_words := tokenizeAdvanced (toLowerStr query)
  if query_words = [] then []
  else
    let document_scores := e.corpus.filterMap (fun doc =>
      let ds := scoreDocument e query_words query doc.1 doc.2
      if 0 < ds.score then some (doc.1, ds) else none)
    let sorted_docs := sortScoreDesc (fun p => p.2.score) document_scores
    (sorted_docs.take top_k).map (fun p =>
      { file_path := p.1, snippet := p.2.snippet, score := p.2.score,
        chunk_id := p.2.chunk_id,
        metadata := [(searchTypeKey, keywordTag)],
        relevance_factors :=
          [(keywordMatchKey, p.2.score), (fileNameMatchKey, (filenameScore query p.1 : ℝ))] })

/-- The result-building loop of `_faiss_search_sync` (lines 426–437): rows
with `idx < len(metadata)` produce faiss-tagged results with the raw FAISS
score; a metadata access failure (exception in the `try`) yields `none` and
the caller returns `[]`. -/
def faissResultRows (e : Engine) (query : Str) : List (ℝ × Int) → Option (List SearchResult)
  | [] => some []
  | (score, idx) :: rest =>
    if idx < (e.faissMetadata.length : Int) then
      match pyGet e.faissMetadata idx with
      | none => none
      | some meta =>
        (faissResultRows e query rest).map (fun rs =>
          { file_path := meta.file_path,
            snippet := extractSnippet meta.text query,
            score := score,
            chunk_id := some meta.chunk_id,
            metadata := [(searchTypeKey, faissTag)],
            relevance_factors := [(embeddingSimKey, score)] } :: rs)
    else faissResultRows e query rest

/-- `EnterpriseSearchEngine._faiss_search_sync` (lines 414–443): `[]` when
the index or model is unavailable; otherwise the processed rows of
`index.search(query_embedding, top_k * 2)`, or `[]` when the `try` raised. -/
def faissSearchSync (e : Engine) (query : Str) (top_k : Nat) : List SearchResult :=
  if e.faissAvailable = false then []
  else
    match faissResultRows e query (e.faissIndexSearch query (top_k * 2)) with
    | some rs => rs
    | none => []

/-- The score boost applied to FAISS results during the merge (line 462). -/
def scaleFaissScore (r : SearchResult) : SearchResult := { r with score := r.score * 5 }

/-- One iteration of the dedup-by-`file_path` loops of
`_merge_search_results` (lines 450-464): append the result (boosted when it
comes from the FAISS list) unless its document is already present. -/
def mergeStep (scale : Bool) (acc : List SearchResult × List Str) (r : SearchResult) :
    List SearchResult × List Str :=
  if r.file_path ∈ acc.2 then acc
  else (acc.1 ++ [if scale then scaleFaissScore r else r], acc.2 ++ [r.file_path])

/-- `EnterpriseSearchEngine._merge_search_results` (lines 445–469): keyword
results first, then FAISS results for unseen documents with their score
multiplied by 5, finally a stable sort by score descending. -/
noncomputable def mergeSearchResults (keyword_results faiss_results : List SearchResult) :
    List SearchResult :=
  let acc1 := keyword_results.foldl (mergeStep false) ([], [])
  let acc2 := faiss_results.foldl (mergeStep true) acc1
  sortScoreDesc (fun r => r.score) acc2.1

/-- The branches `_parallel_search` dispatches. -/
inductive Branch
  | keyword
  | faiss
deriving DecidableEq

/-- `EnterpriseSearchEngine._parallel_search` (lines 242–272): the keyword
branch is always dispatched; the FAISS branch is dispatched when index and
model are available; the merged list is truncated to `top_k`.  The `filters`
argument is accepted and — exactly as in the source — never used.  The
second component records the dispatched branches. -/
noncomputable def parallelSearch (e : Engine) (query : Str) (top_k : Nat)
    (filters : List (Str × Str)) : List SearchResult × List Branch :=
  let dispatched := Branch.keyword :: (if e.faissAvailable then [Branch.faiss] else [])
  let keyword_results := keywordSearchSync e query top_k
  let faiss_results := if e.faissAvailable then faissSearchSync e query top_k else []
  ((mergeSearchResults keyword_results faiss_results).take top_k, dispatched)

/-- The error taxonomy the specification assigns to the orchestrator. -/
inductive SearchError
  | noSearchBackendAvailable
deriving DecidableEq

/-- The per-branch `try/except` recovery of `_parallel_search` (lines
261–267): a failed branch contributes `[]`. -/
def branchRecover (outcome : Except Str (List SearchResult)) : List SearchResult :=
  match outcome with
  | .ok rs => rs
  | .error _ => []

/-- Recovery for the optional FAISS branch (`none` = not dispatched). -/
def branchRecoverOpt (outcome : Option (Except Str (List SearchResult))) : List SearchResult :=
  match outcome with
  | some out => branchRecover out
  | none => []

/-- `_parallel_search` at the branch-outcome level: given the outcome of the
keyword branch and of the optional FAISS branch, the orchestrator absorbs
branch exceptions into empty partial lists and returns the truncated merge.
The `Except SearchError` result type makes the claimed failure semantics
statable; the code has no failing path. -/
noncomputable def parallelSearchOutcomes (keyword_outcome : Except Str (List SearchResult))
    (faiss_outcome : Option (Except Str (List SearchResult))) (top_k : Nat) :
    Except SearchError (List SearchResult) :=
  Except.ok ((mergeSearchResults (branchRecover keyword_outcome)
    (branchRecoverOpt faiss_outcome)).take top_k)

/-! ## `_build_keyword_index` (`enterprise_search.py`, lines 151–187). -/

/-- One line of `chunks.jsonl`: the fields the index builder reads. -/
structure RawChunk where
  chunk_id : Str
  text : Str
  file_path : Str
deriving DecidableEq

/-- `document_corpus[file_path].append(...)` with creation on first use
(lines 164–170). -/
def appendChunkAt (fp : Str) (c : Chunk) : List (Str × List Chunk) → List (Str × List Chunk)
  | [] => [(fp, [c])]
  | (k, cs) :: rest =>
    if k = fp then (k, cs ++ [c]) :: rest else (k, cs) :: appendChunkAt fp c rest

/-- Model of `set(words)` (line 181): the distinct words of the list.  A
Python set iterates in an unspecified order; the resulting counts do not
depend on the order, and this definition fixes one. -/
def dedupList : List Str → List Str
  | [] => []
  | w :: ws =>
    let r := dedupList ws
    if w ∈ r then r else w :: r

/-- `document_frequencies[word] = document_frequencies.get(word, 0) + 1`
(line 183). -/
def bumpDocFreq (w : Str) : List (Str × Nat) → List (Str × Nat)
  | [] => [(w, 1)]
  | (k, n) :: rest =>
    if k = w then (k, n + 1) :: rest else (k, n) :: bumpDocFreq w rest

/-- Processing of one chunk line (lines 156–183): store the lower-cased
text, and bump the document-frequency counter once per distinct token of the
chunk (`set(words)`; iteration order does not affect the resulting counts,
`eraseDups` fixes one order). -/
def buildStep (st : List (Str × List Chunk) × List (Str × Nat)) (rc : RawChunk) :
    List (Str × List Chunk) × List (Str × Nat) :=
  let text := toLowerStr rc.text
  let corpus := appendChunkAt rc.file_path
    { chunk_id := rc.chunk_id, text := text, original_text := rc.text } st.1
  let words := tokenizeAdvanced text
  let dfs := (dedupList words).foldl (fun m w => bumpDocFreq w m) st.2
  (corpus, dfs)

/-- `EnterpriseSearchEngine._build_keyword_index`: the corpus and
document-frequency map built from the chunk stream.  (The per-chunk
`term_frequencies` map is also built by the source but never read by the
search path; it is omitted.) -/
def buildKeywordIndex (chunks : List RawChunk) :
    List (Str × List Chunk) × List (Str × Nat) :=
  chunks.foldl buildStep ([], [])

/-- An engine whose keyword state comes from `_build_keyword_index`. -/
def engineOfChunks (chunks : List RawChunk) (avail : Bool)
    (oracle : Str → Nat → List (ℝ × Int)) (meta : List FaissMeta) : Engine :=
  { corpus := (buildKeywordIndex chunks).1, docFreqs := (buildKeywordIndex chunks).2,
    faissAvailable := avail, faissIndexSearch := oracle, faissMetadata := meta }

/-! ## Specification-side scoring formulas (for the refinement claim C3).

`specTermScoreClaimed` is written from the specification's words: `tf =
termCount/chunkLength`, `idf = ln(totalChunks/docFreq[term])`, contribution
`tf*idf*2` per query term present.  `specTermScoreAmended` differs only in
the corrected idf: the numerator is the number of distinct documents and
`docFreq` counts the chunks containing the term. -/

noncomputable def specTermScoreClaimed (totalChunks : Nat) (docFreq : Str → Nat)
    (query_words : List Str) (text : Str) (text_words : List Str) : ℝ :=
  (query_words.map (fun w =>
    if 0 < countSubstr w text then
      (((countSubstr w text : ℚ) / (text_words.length : ℚ) : ℚ) : ℝ)
        * Real.log ((totalChunks : ℝ) / (docFreq w : ℝ)) * 2
    else 0)).sum

/-- The total number of chunks held by an engine's corpus. -/
def totalChunksOf (e : Engine) : Nat := (e.corpus.map (fun d => d.2.length)).sum

/-- The engine's document-frequency lookup with the source's default 1. -/
def engineDocFreq (e : Engine) (w : Str) : Nat := (Assoc.find? w e.docFreqs).getD 1

/-- The number of distinct chunks of the stream whose token list contains
`w`, with the source's default 1 for unseen terms. -/
def chunkFrequency (chunks : List RawChunk) (w : Str) : Nat :=
  let n := chunks.countP (fun rc => decide (w ∈ tokenizeAdvanced (toLowerStr rc.text)))
  if n = 0 then 1 else n

/-- The number of distinct document paths in the chunk stream. -/
def numDocuments (chunks : List RawChunk) : Nat := (chunks.map (·.file_path)).toFinset.card

noncomputable def specTermScoreAmended (chunks : List RawChunk) (query_words : List Str)
    (text : Str) (text_words : List Str) : ℝ :=
  (query_words.map (fun w =>
    if 0 < countSubstr w text then
      (((countSubstr w text : ℚ) / (text_words.length : ℚ) : ℚ) : ℝ)
        * Real.log ((numDocuments chunks : ℝ) / (chunkFrequency chunks w : ℝ)) * 2
    else 0)).sum

/-- The ordering a stable descending sort establishes: scores descend, and
on equal scores the pairwise relation `Q` carried over from the input list
still holds (used with `Q` = "not a faiss entry before a keyword entry"). -/
def sortOrder {β : Type} (key : β → ℝ) (Q : β → β → Prop) (a b : β) : Prop :=
  key b ≤ key a ∧ (key a = key b → Q a b)

/-! ## Concrete instances used by counterexamples and witnesses. -/

/-- A FAISS oracle for engines whose vector branch is unavailable. -/
def noFaissOracle : Str → Nat → List (ℝ × Int) := fun _ _ => []

/-- A one-document corpus whose chunk text contains the query word
`alpha`. -/
def chunkAlpha : Chunk :=
  { chunk_id := "c1".toList, text := "alpha beta".toList,
    original_text := "alpha beta".toList }

def engineAlpha : Engine :=
  { corpus := [("doc.txt".toList, [chunkAlpha])],
    docFreqs := [("alpha".toList, 1)],
    faissAvailable := false, faissIndexSearch := noFaissOracle, faissMetadata := [] }

/-- The keyword result `engineAlpha` produces for the query `alpha`. -/
noncomputable def resAlpha : SearchResult :=
  { file_path := "doc.txt".toList, snippet := "alpha beta".toList, score := 10,
    chunk_id := some ("c1".toList),
    metadata := [(searchTypeKey, keywordTag)],
    relevance_factors := [(keywordMatchKey, 10), (fileNameMatchKey, 0)] }

/-- A one-document corpus whose single chunk contains no query term, while
the document's file name matches the query. -/
def chunkSec : Chunk :=
  { chunk_id := "c1".toList, text := "xyzq wvut".toList,
    original_text := "xyzq wvut".toList }

def engineSec : Engine :=
  { corpus := [("security.txt".toList, [chunkSec])], docFreqs := [],
    faissAvailable := false, faissIndexSearch := noFaissOracle, faissMetadata := [] }

/-- The keyword result `engineSec` produces for the query `security`: its
whole score is the halved filename bonus. -/
noncomputable def resSec : SearchResult :=
  { file_path := "security.txt".toList, snippet := "xyzq wvut".toList, score := 1,
    chunk_id := some ("c1".toList),
    metadata := [(searchTypeKey, keywordTag)],
    relevance_factors := [(keywordMatchKey, 1), (fileNameMatchKey, 2)] }

/-- A chunk stream with one document split into two chunks; `alpha` occurs
in exactly one chunk, so the total chunk count (2) and the distinct document
count (1) differ. -/
def twoChunkStream : List RawChunk :=
  [{ chunk_id := "c1".toList, text := "alpha beta".toList, file_path := "doc.txt".toList },
   { chunk_id := "c2".toList, text := "gamma delta".toList, file_path := "doc.txt".toList }]

def engineTwoChunks : Engine := engineOfChunks twoChunkStream false noFaissOracle []

/-- Tagged partial results for the merge claim. -/
noncomputable def resKw : SearchResult :=
  { file_path := "a.txt".toList, snippet := [], score := 3, chunk_id := none,
    metadata := [(searchTypeKey, keywordTag)], relevance_factors := [] }

noncomputable def resFa : SearchResult :=
  { file_path := "b.txt".toList, snippet := [], score := 1, chunk_id := none,
    metadata := [(searchTypeKey, faissTag)], relevance_factors := [] }

/-- A filter no enterprise search result can satisfy. -/
def deptFilters : List (Str × Str) := [("department".toList, "sales".toList)]

/-- Metadata and a FAISS row for the `search_optimized` filter witness: the
single row's metadata carries the filtered department. -/
def salesMeta : List (Str × Str) :=
  [(filePathKey, "a.txt".toList), ("department".toList, "sales".toList)]

noncomputable def salesRows : List (ℝ × Int) := [(1/2, 0)]

/-- The processed result of `salesRows` under `deptFilters`. -/
noncomputable def resSales : OptSearchResult :=
  { rank := 1, similarity := 1 - 1/2, file_path := "a.txt".toList,
    chunk_text := [], chunk_id := [], metadata := salesMeta }

/-- Two FAISS rows as an `IndexFlatIP` backend returns them: inner products
in descending order. -/
def ipMetaRows : List (List (Str × Str)) :=
  [[(filePathKey, "a.txt".toList)], [(filePathKey, "b.txt".toList)]]

noncomputable def ipRows : List (ℝ × Int) := [(9/10, 0), (1/2, 1)]

/-- The cache state of the `SearchCache` whose entries are exactly the
given (key, value, time) triples, inserted in order with no intervening
accesses. -/
def filledState {κ α : Type} (n ttl : Nat) (items : List (κ × α × Nat)) : SearchCache κ α :=
  ⟨items, items.map (fun it => (it.1, it.2.2)), n, ttl, 0, 0, 0⟩

/-- A concrete two-slot cache holding one entry, for cache witnesses. -/
def cacheEx : SearchCache Nat Nat := (SearchCache.empty 2 10).put 0 7 0

end DeepSearch

namespace DeepSearch

/-! # Theorems

First the supporting lemmas, then one theorem (plus witness or
counterexample) per claim. -/

/-! ## Association-list lemmas -/

namespace Assoc

variable {κ β : Type} [DecidableEq κ]

theorem keys_nil : keys ([] : List (κ × β)) = [] := rfl

theorem keys_cons (p : κ × β) (l : List (κ × β)) : keys (p :: l) = p.1 :: keys l := rfl

theorem find?_eq_none {k : κ} {l : List (κ × β)} : find? k l = none ↔ k ∉ keys l := by
  induction l with
  | nil => simp [find?, keys]
  | cons p rest ih =>
    obtain ⟨k', v⟩ := p
    by_cases h : k' = k
    · subst h
      simp [find?, keys_cons]
    · have h' : ¬k = k' := fun e => h e.symm
      simp only [find?, if_neg h, ih, keys_cons, List.mem_cons]
      tauto

theorem mem_keys_of_find? {k : κ} {l : List (κ × β)} {v : β}
    (h : find? k l = some v) : k ∈ keys l := by
  by_contra hk
  rw [← find?_eq_none] at hk
  simp [hk] at h

theorem find?_update_self (k : κ) (v : β) (l : List (κ × β)) :
    find? k (update k v l) = some v := by
  induction l with
  | nil => simp [update, find?]
  | cons p rest ih =>
    obtain ⟨k', v'⟩ := p
    by_cases h : k' = k <;> simp [update, find?, h, ih]

theorem keys_update (k : κ) (v : β) (l : List (κ × β)) :
    keys (update k v l) = if k ∈ keys l then keys l else keys l ++ [k] := by
  induction l with
  | nil => simp [update, keys]
  | cons p rest ih =>
    obtain ⟨k', v'⟩ := p
    by_cases h : k' = k
    · subst h
      simp [update, keys]
    · simp only [update, if_neg h, keys_cons, ih]
      by_cases hm : k ∈ keys rest
      · simp [hm, h, Ne.symm h]
      · simp [hm, h, Ne.symm h]

theorem keys_erase (k : κ) (l : List (κ × β)) :
    keys (erase k l) = (keys l).erase k := by
  induction l with
  | nil => simp [erase, keys]
  | cons p rest ih =>
    obtain ⟨k', v'⟩ := p
    by_cases h : k' = k
    · subst h
      simp [erase, keys]
    · simp [erase, h, keys_cons, ih, List.erase_cons]

theorem find?_erase_self (k : κ) (l : List (κ × β)) (h : (keys l).Nodup) :
    find? k (erase k l) = none := by
  rw [find?_eq_none, keys_erase]
  intro hk
  exact ((h.mem_erase_iff).mp hk).1 rfl

theorem update_eq_append (k : κ) (v : β) (l : List (κ × β)) (h : k ∉ keys l) :
    update k v l = l ++ [(k, v)] := by
  induction l with
  | nil => simp [update]
  | cons p rest ih =>
    obtain ⟨k', v'⟩ := p
    simp only [keys_cons, List.mem_cons] at h
    push_neg at h
    simp [update, Ne.symm h.1, ih h.2]

theorem minEntry_mem {val : β → Nat} {l : List (κ × β)} {e : κ × β}
    (h : minEntry val l = some e) : e ∈ l := by
  induction l generalizing e with
  | nil => simp [minEntry] at h
  | cons p rest ih =>
    obtain ⟨k', v'⟩ := p
    unfold minEntry at h
    rcases hm : minEntry val rest with _ | e'
    · rw [hm] at h
      simp at h
      simp [h]
    · rw [hm] at h
      by_cases hle : val v' ≤ val e'.2
      · simp [hle] at h
        simp [h]
      · simp [hle] at h
        exact List.mem_cons_of_mem _ (ih (h ▸ hm))

theorem minEntry_head (val : β → Nat) (k : κ) (v : β) (rest : List (κ × β))
    (h : ∀ e ∈ rest, val v ≤ val e.2) :
    minEntry val ((k, v) :: rest) = some (k, v) := by
  unfold minEntry
  rcases hm : minEntry val rest with _ | e'
  · rfl
  · have := h e' (minEntry_mem hm)
    simp [this]

theorem find?_of_mem_nodup {k : κ} {b : β} {l : List (κ × β)}
    (hnd : (keys l).Nodup) (hm : (k, b) ∈ l) : find? k l = some b := by
  induction l with
  | nil => simp at hm
  | cons p rest ih =>
    obtain ⟨k', v'⟩ := p
    rcases List.mem_cons.mp hm with h | h
    · obtain ⟨rfl, rfl⟩ := Prod.mk.injEq .. ▸ h
      simp_all [find?]
    · have hk : k ∈ keys rest := List.mem_map_of_mem Prod.fst h
      have hne : k' ≠ k := by
        rintro rfl
        exact (List.nodup_cons.mp hnd).1 hk
      simp [find?, hne, ih (List.nodup_cons.mp hnd).2 h]

end Assoc

/-! ## `SearchCache` state lemmas -/

namespace SearchCache

variable {κ α : Type} [DecidableEq κ]

theorem evictLru_ttl (c : SearchCache κ α) : c.evictLru.ttl_seconds = c.ttl_seconds := by
  unfold evictLru
  rcases Assoc.minEntry id c.access_times with _ | ⟨lru, t⟩ <;> rfl

theorem put_ttl (c : SearchCache κ α) (k : κ) (v : α) (now : Nat) :
    (c.put k v now).ttl_seconds = c.ttl_seconds := by
  unfold put
  by_cases h : c.max_size ≤ c.cache.length <;> simp [h, evictLru_ttl]

theorem put_find? (c : SearchCache κ α) (k : κ) (v : α) (now : Nat) :
    Assoc.find? k (c.put k v now).cache = some (v, now) := by
  unfold put
  exact Assoc.find?_update_self ..

theorem wf_clear (c : SearchCache κ α) : c.clear.WF := by
  exact ⟨rfl, List.nodup_nil⟩

theorem wf_empty (n ttl : Nat) : (SearchCache.empty n ttl : SearchCache κ α).WF := by
  exact ⟨rfl, List.nodup_nil⟩

theorem wf_evictLru (c : SearchCache κ α) (h : c.WF) : c.evictLru.WF := by
  unfold evictLru
  rcases hm : Assoc.minEntry id c.access_times with _ | ⟨lru, t⟩
  · exact h
  · refine ⟨?_, ?_⟩
    · show Assoc.keys (Assoc.erase lru c.cache) = Assoc.keys (Assoc.erase lru c.access_times)
      rw [Assoc.keys_erase, Assoc.keys_erase, h.1]
    · show (Assoc.keys (Assoc.erase lru c.cache)).Nodup
      rw [Assoc.keys_erase]
      exact h.2.erase lru

theorem wf_update_both (c : SearchCache κ α) (k : κ) (p : α × Nat) (now : Nat) (h : c.WF) :
    Assoc.keys (Assoc.update k p c.cache) = Assoc.keys (Assoc.update k now c.access_times) ∧
      (Assoc.keys (Assoc.update k p c.cache)).Nodup := by
  rw [Assoc.keys_update, Assoc.keys_update, h.1]
  constructor
  · rfl
  · by_cases hk : k ∈ Assoc.keys c.access_times
    · rw [if_pos hk, ← h.1]
      exact h.2
    · rw [if_neg hk]
      rw [List.nodup_append]
      refine ⟨h.1 ▸ h.2, List.nodup_singleton k, ?_⟩
      intro a ha hb
      simp at hb
      subst hb
      exact hk (h.1 ▸ ha)

theorem wf_put (c : SearchCache κ α) (k : κ) (v : α) (now : Nat) (h : c.WF) :
    (c.put k v now).WF := by
  unfold put
  by_cases hc : c.max_size ≤ c.cache.length
  · simp only [if_pos hc]
    exact wf_update_both c.evictLru k (v, now) now (wf_evictLru c h)
  · simp only [if_neg hc]
    exact wf_update_both c k (v, now) now h

theorem wf_get (c : SearchCache κ α) (k : κ) (now : Nat) (h : c.WF) :
    ((c.get k now).2).WF := by
  unfold get
  rcases hf : Assoc.find? k c.cache with _ | ⟨v, ts⟩
  · exact h
  · by_cases ht : now - ts < c.ttl_seconds
    · simp only [if_pos ht]
      have hk : k ∈ Assoc.keys c.cache := Assoc.mem_keys_of_find? hf
      refine ⟨?_, h.2⟩
      show Assoc.keys c.cache = Assoc.keys (Assoc.update k now c.access_times)
      rw [Assoc.keys_update, if_pos (h.1 ▸ hk), h.1]
    · simp only [if_neg ht]
      refine ⟨?_, ?_⟩
      · show Assoc.keys (Assoc.erase k c.cache) = Assoc.keys (Assoc.erase k c.access_times)
        rw [Assoc.keys_erase, Assoc.keys_erase, h.1]
      · show (Assoc.keys (Assoc.erase k c.cache)).Nodup
        rw [Assoc.keys_erase]
        exact h.2.erase k

end SearchCache

/-- C10: in the `SearchCache`, the key set of the entry map and the key set
of the access-time map are identical (here: the ordered, duplicate-free key
lists are equal, which implies key-set equality) after every operation —
`get` (hit, expiry-removal or miss), `put` (including its eviction),
`_evict_lru` itself, `clear`, and the initial state. -/
theorem claim_C10_cache_key_sets {κ α : Type} [DecidableEq κ]
    (c : SearchCache κ α) (k : κ) (v : α) (now : Nat) (h : c.WF) :
    ((c.get k now).2).WF ∧ (c.put k v now).WF ∧ c.evictLru.WF ∧ c.clear.WF ∧
      (SearchCache.empty c.max_size c.ttl_seconds : SearchCache κ α).WF :=
  ⟨SearchCache.wf_get c k now h, SearchCache.wf_put c k v now h,
   SearchCache.wf_evictLru c h, SearchCache.wf_clear c,
   SearchCache.wf_empty c.max_size c.ttl_seconds⟩

/-- Witness for C10 at a concrete one-entry cache. -/
theorem claim_C10_witness :
    ((cacheEx.get 0 3).2).WF ∧ (cacheEx.put 1 5 4).WF ∧ cacheEx.evictLru.WF ∧
      cacheEx.clear.WF ∧
      (SearchCache.empty cacheEx.max_size cacheEx.ttl_seconds : SearchCache Nat Nat).WF :=
  claim_C10_cache_key_sets cacheEx 0 5 3 (by decide) |>.imp id
    (fun h => ⟨(claim_C10_cache_key_sets cacheEx 1 5 4 (by decide)).2.1, h.2⟩)

/-- C5: a `get` never returns an entry whose TTL has elapsed since its
`put` — such a `get` misses and removes the entry — and a `get` of a key
within the TTL of its `put` (with no intervening operation) returns exactly
the stored value. -/
theorem claim_C5_ttl {κ α : Type} [DecidableEq κ]
    (c : SearchCache κ α) (k : κ) (v v' : α) (ts t0 now now' : Nat) :
    (c.WF → Assoc.find? k c.cache = some (v, ts) → c.ttl_seconds ≤ now - ts →
      (c.get k now).1 = none ∧ Assoc.find? k ((c.get k now).2).cache = none) ∧
    (now' - t0 < c.ttl_seconds → ((c.put k v' t0).get k now').1 = some v') := by
  constructor
  · intro hwf hf hts
    have hlt : ¬(now - ts < c.ttl_seconds) := not_lt.mpr hts
    unfold SearchCache.get
    rw [hf]
    simp only [if_neg hlt]
    exact ⟨trivial, Assoc.find?_erase_self k c.cache hwf.2⟩
  · intro ht
    unfold SearchCache.get
    rw [SearchCache.put_find?]
    rw [SearchCache.put_ttl] at *
    simp only [if_pos ht]

/-- Witness for C5: an expired entry (TTL 10, stored at 0, read at 10)
misses and is removed; a fresh entry (stored at 4, read at 6) is returned
exactly. -/
theorem claim_C5_witness :
    ((cacheEx.get 0 10).1 = none ∧ Assoc.find? 0 ((cacheEx.get 0 10).2).cache = none) ∧
      ((cacheEx.put 1 8 4).get 1 6).1 = some 8 :=
  ⟨(claim_C5_ttl cacheEx 0 7 8 0 4 10 6).1 (by decide) (by decide) (by decide),
   (claim_C5_ttl cacheEx 1 7 8 0 4 10 6).2 (by decide)⟩

/-! ## Filling a `SearchCache` with fresh keys (for C6) -/

namespace SearchCache

variable {κ α : Type} [DecidableEq κ]

theorem putSeq_append (c : SearchCache κ α) (l1 l2 : List (κ × α × Nat)) :
    c.putSeq (l1 ++ l2) = (c.putSeq l1).putSeq l2 := by
  unfold putSeq
  exact List.foldl_append ..

theorem put_fresh (c : SearchCache κ α) (k : κ) (v : α) (t : Nat)
    (hlen : c.cache.length < c.max_size) (hk : k ∉ Assoc.keys c.cache)
    (hkeys : Assoc.keys c.cache = Assoc.keys c.access_times) :
    c.put k v t = { c with cache := c.cache ++ [(k, v, t)],
                           access_times := c.access_times ++ [(k, t)] } := by
  have hk2 : k ∉ Assoc.keys c.access_times := by
    rw [← hkeys]
    exact hk
  unfold put
  rw [if_neg (not_le.mpr hlen)]
  simp only [Assoc.update_eq_append _ _ _ hk, Assoc.update_eq_append _ _ _ hk2]

theorem keys_map_snd (l : List (κ × α × Nat)) :
    Assoc.keys (l.map (fun it => (it.1, it.2.2))) = Assoc.keys l := by
  unfold Assoc.keys
  rw [List.map_map]
  rfl

theorem putSeq_filled (n ttl : Nat) (items : List (κ × α × Nat)) :
    ∀ acc : List (κ × α × Nat), acc.length + items.length ≤ n →
      (Assoc.keys (acc ++ items)).Nodup →
      (filledState n ttl acc).putSeq items = filledState n ttl (acc ++ items) := by
  induction items with
  | nil =>
    intro acc _ _
    simp [putSeq]
  | cons it rest ih =>
    intro acc hlen hnd
    have hksplit : (Assoc.keys acc ++ Assoc.keys (it :: rest)).Nodup := by
      unfold Assoc.keys at hnd ⊢
      rw [← List.map_append]
      exact hnd
    have hk : it.1 ∉ Assoc.keys acc := by
      have hd := (List.nodup_append.mp hksplit).2.2
      intro hmem
      exact hd hmem (by simp [Assoc.keys_cons])
    have hstep : (filledState n ttl acc).put it.1 it.2.1 it.2.2
        = filledState n ttl (acc ++ [it]) := by
      rw [put_fresh]
      · unfold filledState
        simp
      · show acc.length < n
        simp at hlen
        omega
      · exact hk
      · show Assoc.keys acc = Assoc.keys (acc.map (fun it => (it.1, it.2.2)))
        rw [keys_map_snd]
    show ((filledState n ttl acc).put it.1 it.2.1 it.2.2).putSeq rest = _
    rw [hstep, ih (acc ++ [it]) (by simp at hlen ⊢; omega)
      (by rw [List.append_assoc]; simpa using hnd)]
    rw [List.append_assoc]
    rfl

end SearchCache

/-- C6 (amended): for the `SearchCache` of `faiss_optimizer.py` the claim
holds: starting empty with capacity `n ≥ 1`, after `n + 1` puts of distinct
keys at strictly increasing times and with no intervening accesses, exactly
one eviction has happened, the evicted entry is the least-recently-accessed
(first-inserted) one, every other entry is still present, and no
intermediate state ever holds more than `n` entries.  (The enterprise
engine's internal result cache violates the capacity bound; see the
counterexample.) -/
theorem claim_C6_amended {κ α : Type} [DecidableEq κ]
    (n ttl : Nat) (it0 : κ × α × Nat) (rest : List (κ × α × Nat))
    (hn : 1 ≤ n) (hlen : rest.length = n)
    (hkeys : (Assoc.keys (it0 :: rest)).Nodup)
    (htimes : ((it0 :: rest).map (fun it => it.2.2)).Pairwise (· < ·)) :
    ((SearchCache.empty n ttl : SearchCache κ α).putSeq (it0 :: rest)).cache.length = n ∧
    ((SearchCache.empty n ttl : SearchCache κ α).putSeq (it0 :: rest)).evictions = 1 ∧
    Assoc.find? it0.1 ((SearchCache.empty n ttl : SearchCache κ α).putSeq (it0 :: rest)).cache
      = none ∧
    (∀ it ∈ rest,
      Assoc.find? it.1 ((SearchCache.empty n ttl : SearchCache κ α).putSeq (it0 :: rest)).cache
        = some it.2) ∧
    (∀ i, ((SearchCache.empty n ttl : SearchCache κ α).putSeq ((it0 :: rest).take i)).cache.length
      ≤ n) := by
  -- split the last insertion off the run
  have hrest_ne : rest ≠ [] := by
    intro h
    rw [h] at hlen
    simp at hlen
    omega
  rcases (List.eq_nil_or_concat rest) with h | ⟨restInit, lastIt, rfl⟩
  · exact absurd h hrest_ne
  simp only [List.concat_eq_append] at hlen hkeys htimes hrest_ne ⊢
  have hfirst_len : (it0 :: restInit).length = n := by
    have := hlen
    simp at this ⊢
    omega
  have hempty : (SearchCache.empty n ttl : SearchCache κ α) = filledState n ttl [] := rfl
  have hfirst_nd : (Assoc.keys ([] ++ (it0 :: restInit))).Nodup := by
    have hsub : List.Sublist (it0 :: restInit) (it0 :: (restInit ++ [lastIt])) :=
      List.Sublist.cons₂ it0 (List.sublist_append_left restInit [lastIt])
    show (List.map Prod.fst ([] ++ (it0 :: restInit))).Nodup
    rw [List.nil_append]
    exact List.Nodup.sublist (hsub.map Prod.fst) hkeys
  have hsplit : (it0 :: (restInit ++ [lastIt])) = (it0 :: restInit) ++ [lastIt] := by simp
  have hfill : (SearchCache.empty n ttl : SearchCache κ α).putSeq (it0 :: restInit)
      = filledState n ttl (it0 :: restInit) := by
    rw [hempty]
    have := SearchCache.putSeq_filled n ttl (it0 :: restInit) []
      (by simp [hfirst_len]) hfirst_nd
    simpa using this
  -- the (n+1)-st put evicts the first entry
  have hmin : Assoc.minEntry id ((filledState n ttl (it0 :: restInit)).access_times)
      = some (it0.1, it0.2.2) := by
    show Assoc.minEntry id ((it0 :: restInit).map (fun it => (it.1, it.2.2))) = _
    rw [List.map_cons]
    refine Assoc.minEntry_head _ _ _ _ ?_
    intro e he
    simp only [List.mem_map] at he
    obtain ⟨it, hit, rfl⟩ := he
    have : it0.2.2 < it.2.2 := by
      have hp := htimes
      rw [List.map_cons, List.pairwise_cons] at hp
      refine hp.1 _ (List.mem_map_of_mem _ ?_)
      exact List.mem_append_left _ hit
    exact le_of_lt this
  have hcap : n ≤ ((filledState n ttl (it0 :: restInit)).cache).length := by
    show n ≤ (it0 :: restInit).length
    rw [hfirst_len]
  have hkeys' : Assoc.keys (it0 :: (restInit ++ [lastIt])) =
      it0.1 :: Assoc.keys (restInit ++ [lastIt]) := rfl
  have hnd_tail : (Assoc.keys (restInit ++ [lastIt])).Nodup := by
    rw [hkeys'] at hkeys
    exact (List.nodup_cons.mp hkeys).2
  have h0_not : it0.1 ∉ Assoc.keys (restInit ++ [lastIt]) := by
    rw [hkeys'] at hkeys
    exact (List.nodup_cons.mp hkeys).1
  have hlast_not : lastIt.1 ∉ Assoc.keys restInit := by
    unfold Assoc.keys at hnd_tail
    rw [List.map_append] at hnd_tail
    have hd := (List.nodup_append.mp hnd_tail).2.2
    intro hmem
    exact hd hmem (by simp)
  -- evaluate the eviction and the final insertion
  have hevict : (filledState n ttl (it0 :: restInit)).evictLru
      = ⟨restInit, restInit.map (fun it => (it.1, it.2.2)), n, ttl, 0, 0, 1⟩ := by
    unfold SearchCache.evictLru
    rw [hmin]
    unfold filledState Assoc.erase
    simp
  have hput : (filledState n ttl (it0 :: restInit)).put lastIt.1 lastIt.2.1 lastIt.2.2
      = ⟨restInit ++ [lastIt], restInit.map (fun it => (it.1, it.2.2)) ++ [(lastIt.1, lastIt.2.2)],
         n, ttl, 0, 0, 1⟩ := by
    have hcond : (filledState n ttl (it0 :: restInit)).max_size
        ≤ (filledState n ttl (it0 :: restInit)).cache.length := hcap
    have h1 : Assoc.update lastIt.1 (lastIt.2.1, lastIt.2.2) restInit
        = restInit ++ [(lastIt.1, lastIt.2.1, lastIt.2.2)] :=
      Assoc.update_eq_append _ _ _ hlast_not
    have h2 : Assoc.update lastIt.1 lastIt.2.2 (restInit.map (fun it => (it.1, it.2.2)))
        = restInit.map (fun it => (it.1, it.2.2)) ++ [(lastIt.1, lastIt.2.2)] :=
      Assoc.update_eq_append _ _ _ (by rw [SearchCache.keys_map_snd]; exact hlast_not)
    unfold SearchCache.put
    simp only [if_pos hcond, hevict, h1, h2]
  have hfinal : (SearchCache.empty n ttl : SearchCache κ α).putSeq (it0 :: (restInit ++ [lastIt]))
      = ⟨restInit ++ [lastIt], restInit.map (fun it => (it.1, it.2.2)) ++ [(lastIt.1, lastIt.2.2)],
         n, ttl, 0, 0, 1⟩ := by
    rw [hsplit, SearchCache.putSeq_append, hfill]
    show (filledState n ttl (it0 :: restInit)).put lastIt.1 lastIt.2.1 lastIt.2.2 = _
    exact hput
  refine ⟨?_, ?_, ?_, ?_, ?_⟩
  · rw [hfinal]
    show (restInit ++ [lastIt]).length = n
    have := hlen
    simp at this ⊢
    omega
  · rw [hfinal]
  · rw [hfinal]
    exact Assoc.find?_eq_none.mpr h0_not
  · intro it hit
    rw [hfinal]
    exact Assoc.find?_of_mem_nodup hnd_tail hit
  · intro i
    by_cases hi : i ≤ n
    · have htk : ((it0 :: (restInit ++ [lastIt])).take i).length ≤ n := by
        rw [List.length_take]
        omega
      have hnd_tk : (Assoc.keys ([] ++ (it0 :: (restInit ++ [lastIt])).take i)).Nodup := by
        simp only [List.nil_append]
        unfold Assoc.keys
        rw [List.map_take]
        exact List.Nodup.sublist (List.take_sublist _ _) hkeys
      have := SearchCache.putSeq_filled n ttl ((it0 :: (restInit ++ [lastIt])).take i) []
        (by simpa using htk) hnd_tk
      rw [hempty, this]
      show (List.take i (it0 :: (restInit ++ [lastIt]))).length ≤ n
      exact htk
    · have hlen_all : (it0 :: (restInit ++ [lastIt])).length ≤ i := by
        have := hlen
        simp at this ⊢
        omega
      rw [List.take_of_length_le hlen_all, hfinal]
      show (restInit ++ [lastIt]).length ≤ n
      have := hlen
      simp at this ⊢
      omega

/-- Witness for C6 (amended), at capacity 2 with three distinct keys. -/
theorem claim_C6_witness :
    ((SearchCache.empty 2 10 : SearchCache Nat Nat).putSeq
        ((0, 7, 0) :: [(1, 8, 1), (2, 9, 2)])).cache.length = 2 ∧
    ((SearchCache.empty 2 10 : SearchCache Nat Nat).putSeq
        ((0, 7, 0) :: [(1, 8, 1), (2, 9, 2)])).evictions = 1 ∧
    Assoc.find? (0, 7, 0).1 ((SearchCache.empty 2 10 : SearchCache Nat Nat).putSeq
        ((0, 7, 0) :: [(1, 8, 1), (2, 9, 2)])).cache = none ∧
    (∀ it ∈ [(1, 8, 1), (2, 9, 2)],
      Assoc.find? it.1 ((SearchCache.empty 2 10 : SearchCache Nat Nat).putSeq
        ((0, 7, 0) :: [(1, 8, 1), (2, 9, 2)])).cache = some it.2) ∧
    (∀ i, ((SearchCache.empty 2 10 : SearchCache Nat Nat).putSeq
        (((0, 7, 0) :: [(1, 8, 1), (2, 9, 2)]).take i)).cache.length ≤ 2) :=
  claim_C6_amended 2 10 (0, 7, 0) [(1, 8, 1), (2, 9, 2)]
    (by decide) (by decide) (by decide) (by decide)

/-- Counterexample for C6 as stated: the enterprise engine's internal result
cache (`_cache_results`) with `cache_size = 1` holds both entries after two
puts of distinct keys — no entry is evicted and the size reaches
`cacheSize + 1`. -/
theorem claim_C6_counterexample :
    (cacheResults 1 (cacheResults 1 ([] : List (Nat × Nat × Nat)) 0 7 0) 1 8 1).length = 2 ∧
    Assoc.find? 0 (cacheResults 1 (cacheResults 1 ([] : List (Nat × Nat × Nat)) 0 7 0) 1 8 1)
      = some (7, 0) ∧
    Assoc.find? 1 (cacheResults 1 (cacheResults 1 ([] : List (Nat × Nat × Nat)) 0 7 0) 1 8 1)
      = some (8, 1) := by
  decide

/-! ## `FAISSOptimizer.search_optimized` result processing (C7, C8) -/

theorem processRows_filters (metadata : List (List (Str × Str))) (filters : List (Str × Str)) :
    ∀ (l : List (Nat × ℝ × Int)) (rs : List OptSearchResult),
      processRows metadata filters l = some rs →
      ∀ r ∈ rs, matchFilters r.metadata filters = true := by
  intro l
  induction l with
  | nil =>
    intro rs hp r hr
    unfold processRows at hp
    simp at hp
    subst hp
    simp at hr
  | cons row rest ih =>
    obtain ⟨i, d, idx⟩ := row
    intro rs hp r hr
    unfold processRows at hp
    by_cases h1 : idx ≠ -1 ∧ idx < (metadata.length : Int)
    · rw [if_pos h1] at hp
      rcases hm : pyGet metadata idx with _ | m
      · rw [hm] at hp
        simp at hp
      · rw [hm] at hp
        have hp' : (if filters ≠ [] ∧ matchFilters m filters = false then
            processRows metadata filters rest
          else
            (processRows metadata filters rest).map (fun rs =>
              { rank := i + 1, similarity := 1 - d,
                file_path := (Assoc.find? filePathKey m).getD [],
                chunk_text := (Assoc.find? chunkTextKey m).getD [],
                chunk_id := (Assoc.find? chunkIdKey m).getD [],
                metadata := m } :: rs)) = some rs := hp
        by_cases h2 : filters ≠ [] ∧ matchFilters m filters = false
        · rw [if_pos h2] at hp'
          exact ih rs hp' r hr
        · rw [if_neg h2] at hp'
          rcases hrest : processRows metadata filters rest with _ | rs'
          · rw [hrest] at hp'
            exact Option.noConfusion hp'
          · rw [hrest] at hp'
            have hrs : _ :: rs' = rs := Option.some.inj hp'
            subst hrs
            rcases List.mem_cons.mp hr with hr0 | hr'
            · subst hr0
              push_neg at h2
              by_cases hf : filters = []
              · subst hf
                rfl
              · simpa using h2 hf
            · exact ih rs' hrest r hr'
    · rw [if_neg h1] at hp
      exact ih rs hp r hr

/-- C7 (amended, the part that holds): every result produced by
`FAISSOptimizer.search_optimized` satisfies every equality constraint of the
supplied filter map; rows failing a filter are dropped during result
processing. -/
theorem claim_C7_amended (metadata : List (List (Str × Str))) (filters : List (Str × Str))
    (rows : List (ℝ × Int)) (r : OptSearchResult)
    (hr : r ∈ searchOptimizedResults metadata filters rows) :
    matchFilters r.metadata filters = true := by
  unfold searchOptimizedResults at hr
  rcases hp : processRows metadata filters (rows.enum.map (fun p => (p.1, p.2.1, p.2.2)))
    with _ | rs
  · rw [hp] at hr
    simp at hr
  · rw [hp] at hr
    exact processRows_filters metadata filters _ rs hp r hr

theorem searchOptimized_salesRows :
    searchOptimizedResults [salesMeta] deptFilters salesRows = [resSales] := by
  unfold searchOptimizedResults salesRows
  norm_num [List.enum, List.enumFrom, processRows, pyGet, matchFilters, deptFilters,
    salesMeta, resSales, Assoc.find?, filePathKey, chunkTextKey, chunkIdKey]
  all_goals decide

/-- Witness for C7 at a concrete filtered search. -/
theorem claim_C7_witness : matchFilters resSales.metadata deptFilters = true :=
  claim_C7_amended [salesMeta] deptFilters salesRows resSales
    (by rw [searchOptimized_salesRows]; exact List.mem_singleton.mpr rfl)

/-- C8: with the repository's `IndexFlatIP` index (descending inner
products, here 0.9 then 0.5), `search_optimized` reports
`similarity = 1 - score`, so the returned list is in ASCENDING order of the
similarity it reports — the claimed descending order fails. -/
theorem claim_C8_similarity_order :
    (searchOptimizedResults ipMetaRows [] ipRows).map (fun r => r.similarity)
      = [1/10, 1/2] ∧
    ¬ ((searchOptimizedResults ipMetaRows [] ipRows).map (fun r => r.similarity)).Pairwise
        (fun a b => b ≤ a) := by
  have heval : (searchOptimizedResults ipMetaRows [] ipRows).map (fun r => r.similarity)
      = [1/10, 1/2] := by
    unfold searchOptimizedResults ipRows
    norm_num [List.enum, List.enumFrom, processRows, pyGet, matchFilters, ipMetaRows,
      Assoc.find?, filePathKey, chunkTextKey, chunkIdKey]
    all_goals decide
  refine ⟨heval, ?_⟩
  rw [heval]
  intro h
  have := (List.pairwise_cons.mp h).1 (1/2) (by simp)
  norm_num at this

/-! ## Stable sort lemmas -/

theorem insertScoreDesc_perm {β : Type} (key : β → ℝ) (x : β) (l : List β) :
    (insertScoreDesc key x l).Perm (x :: l) := by
  induction l with
  | nil => exact List.Perm.refl _
  | cons y ys ih =>
    unfold insertScoreDesc
    by_cases h : key y ≤ key x
    · rw [if_pos h]
    · rw [if_neg h]
      exact (ih.cons y).trans (List.Perm.swap x y ys)

theorem sortScoreDesc_perm {β : Type} (key : β → ℝ) (l : List β) :
    (sortScoreDesc key l).Perm l := by
  induction l with
  | nil => exact List.Perm.refl _
  | cons x xs ih =>
    unfold sortScoreDesc
    exact (insertScoreDesc_perm key x _).trans (ih.cons x)

theorem mem_sortScoreDesc {β : Type} {key : β → ℝ} {l : List β} {a : β} :
    a ∈ sortScoreDesc key l ↔ a ∈ l :=
  (sortScoreDesc_perm key l).mem_iff

theorem insertScoreDesc_pairwise {β : Type} (key : β → ℝ) (Q : β → β → Prop) (x : β)
    (l : List β) (hl : l.Pairwise (sortOrder key Q))
    (hx : ∀ y ∈ l, key x = key y → Q x y) :
    (insertScoreDesc key x l).Pairwise (sortOrder key Q) := by
  induction l with
  | nil => simp [insertScoreDesc]
  | cons y ys ih =>
    unfold insertScoreDesc
    by_cases h : key y ≤ key x
    · rw [if_pos h]
      refine List.pairwise_cons.mpr ⟨?_, hl⟩
      intro z hz
      rcases List.mem_cons.mp hz with rfl | hz'
      · exact ⟨h, fun he => hx z (List.mem_cons_self ..) he⟩
      · have hyz := (List.pairwise_cons.mp hl).1 z hz'
        exact ⟨le_trans hyz.1 h, fun he => hx z (List.mem_cons_of_mem _ hz') he⟩
    · rw [if_neg h]
      have hxy : key x < key y := not_le.mp h
      refine List.pairwise_cons.mpr ⟨?_, ih (List.pairwise_cons.mp hl).2
        (fun z hz he => hx z (List.mem_cons_of_mem _ hz) he)⟩
      intro z hz
      have hz2 : z = x ∨ z ∈ ys := by
        have := (insertScoreDesc_perm key x ys).mem_iff.mp hz
        simpa using this
      rcases hz2 with rfl | hz'
      · exact ⟨le_of_lt hxy, fun he => absurd (he ▸ hxy) (lt_irrefl _)⟩
      · exact (List.pairwise_cons.mp hl).1 z hz'

theorem sortScoreDesc_pairwise {β : Type} (key : β → ℝ) (Q : β → β → Prop) (l : List β)
    (hl : l.Pairwise (fun a b => key a = key b → Q a b)) :
    (sortScoreDesc key l).Pairwise (sortOrder key Q) := by
  induction l with
  | nil => simp [sortScoreDesc]
  | cons x xs ih =>
    unfold sortScoreDesc
    refine insertScoreDesc_pairwise key Q x _ (ih (List.pairwise_cons.mp hl).2) ?_
    intro y hy he
    exact (List.pairwise_cons.mp hl).1 y ((sortScoreDesc_perm key xs).mem_iff.mp hy) he

/-! ## Merge fold lemmas (C4) -/

theorem scaleFaissScore_path (r : SearchResult) :
    (scaleFaissScore r).file_path = r.file_path := rfl

theorem scaleFaissScore_metadata (r : SearchResult) :
    (scaleFaissScore r).metadata = r.metadata := rfl

theorem mergeFold_paths (sc : Bool) :
    ∀ (l : List SearchResult) (acc : List SearchResult × List Str),
      acc.2 = acc.1.map (fun r => r.file_path) →
      (l.foldl (mergeStep sc) acc).2 = (l.foldl (mergeStep sc) acc).1.map (fun r => r.file_path) := by
  intro l
  induction l with
  | nil => intro acc h; exact h
  | cons r rest ih =>
    intro acc h
    show (rest.foldl (mergeStep sc) (mergeStep sc acc r)).2 = _
    refine ih _ ?_
    unfold mergeStep
    by_cases hm : r.file_path ∈ acc.2
    · rw [if_pos hm]
      exact h
    · rw [if_neg hm]
      show acc.2 ++ [r.file_path] = (acc.1 ++ [if sc then scaleFaissScore r else r]).map _
      rw [List.map_append, ← h]
      by_cases hs : sc = true
      · simp [hs, scaleFaissScore_path]
      · simp at hs
        simp [hs]

theorem mergeFold_nodup (sc : Bool) :
    ∀ (l : List SearchResult) (acc : List SearchResult × List Str),
      acc.2.Nodup → (l.foldl (mergeStep sc) acc).2.Nodup := by
  intro l
  induction l with
  | nil => intro acc h; exact h
  | cons r rest ih =>
    intro acc h
    refine ih _ ?_
    unfold mergeStep
    by_cases hm : r.file_path ∈ acc.2
    · rw [if_pos hm]
      exact h
    · rw [if_neg hm]
      show (acc.2 ++ [r.file_path]).Nodup
      rw [List.nodup_append]
      exact ⟨h, List.nodup_singleton _, by intro a ha hb; simp at hb; subst hb; exact hm ha⟩

theorem mergeFold_mem_mono (sc : Bool) :
    ∀ (l : List SearchResult) (acc : List SearchResult × List Str) (r : SearchResult),
      r ∈ acc.1 → r ∈ (l.foldl (mergeStep sc) acc).1 := by
  intro l
  induction l with
  | nil => intro acc r h; exact h
  | cons r0 rest ih =>
    intro acc r h
    refine ih _ r ?_
    unfold mergeStep
    by_cases hm : r0.file_path ∈ acc.2
    · rw [if_pos hm]
      exact h
    · rw [if_neg hm]
      exact List.mem_append_left _ h

theorem mergeFold_seen_mono (sc : Bool) :
    ∀ (l : List SearchResult) (acc : List SearchResult × List Str) (p : Str),
      p ∈ acc.2 → p ∈ (l.foldl (mergeStep sc) acc).2 := by
  intro l
  induction l with
  | nil => intro acc p h; exact h
  | cons r0 rest ih =>
    intro acc p h
    refine ih _ p ?_
    unfold mergeStep
    by_cases hm : r0.file_path ∈ acc.2
    · rw [if_pos hm]
      exact h
    · rw [if_neg hm]
      exact List.mem_append_left _ h

theorem mergeFold_mem_src (sc : Bool) :
    ∀ (l : List SearchResult) (acc : List SearchResult × List Str) (r : SearchResult),
      r ∈ (l.foldl (mergeStep sc) acc).1 →
      r ∈ acc.1 ∨ ∃ r0 ∈ l, r = (if sc then scaleFaissScore r0 else r0) ∧ r0.file_path ∉ acc.2 := by
  intro l
  induction l with
  | nil =>
    intro acc r h
    exact Or.inl h
  | cons r0 rest ih =>
    intro acc r h
    rw [List.foldl_cons] at h
    by_cases hm : r0.file_path ∈ acc.2
    · have hstep : mergeStep sc acc r0 = acc := by
        unfold mergeStep
        rw [if_pos hm]
      rw [hstep] at h
      rcases ih acc r h with h1 | ⟨r1, hr1, he, hp⟩
      · exact Or.inl h1
      · exact Or.inr ⟨r1, List.mem_cons_of_mem _ hr1, he, hp⟩
    · have hstep : mergeStep sc acc r0
          = (acc.1 ++ [if sc then scaleFaissScore r0 else r0], acc.2 ++ [r0.file_path]) := by
        unfold mergeStep
        rw [if_neg hm]
      rw [hstep] at h
      rcases ih _ r h with h1 | ⟨r1, hr1, he, hp⟩
      · rcases List.mem_append.mp h1 with h2 | h2
        · exact Or.inl h2
        · have : r = if sc then scaleFaissScore r0 else r0 := by simpa using h2
          exact Or.inr ⟨r0, List.mem_cons_self .., this, hm⟩
      · have hp' : r1.file_path ∉ acc.2 := fun hq => hp (List.mem_append_left _ hq)
        exact Or.inr ⟨r1, List.mem_cons_of_mem _ hr1, he, hp'⟩

theorem mergeFold_path_covered (sc : Bool) :
    ∀ (l : List SearchResult) (acc : List SearchResult × List Str) (p : Str),
      p ∈ l.map (fun r => r.file_path) → p ∈ (l.foldl (mergeStep sc) acc).2 := by
  intro l
  induction l with
  | nil =>
    intro acc p h
    simp at h
  | cons r0 rest ih =>
    intro acc p h
    rw [List.map_cons] at h
    rcases List.mem_cons.mp h with rfl | h2
    · by_cases hm : r0.file_path ∈ acc.2
      · have hstep : mergeStep sc acc r0 = acc := by
          unfold mergeStep
          rw [if_pos hm]
        show r0.file_path ∈ (rest.foldl (mergeStep sc) (mergeStep sc acc r0)).2
        rw [hstep]
        exact mergeFold_seen_mono sc rest acc _ hm
      · have hstep : mergeStep sc acc r0
            = (acc.1 ++ [if sc then scaleFaissScore r0 else r0], acc.2 ++ [r0.file_path]) := by
          unfold mergeStep
          rw [if_neg hm]
        show r0.file_path ∈ (rest.foldl (mergeStep sc) (mergeStep sc acc r0)).2
        rw [hstep]
        exact mergeFold_seen_mono sc rest _ _ (by simp)
    · exact ih (mergeStep sc acc r0) p h2

theorem mergeFold_entry :
    ∀ (l : List SearchResult) (acc : List SearchResult × List Str) (p : Str),
      p ∈ l.map (fun r => r.file_path) → p ∉ acc.2 →
      ∃ r ∈ (l.foldl (mergeStep false) acc).1, r ∈ l ∧ r.file_path = p := by
  intro l
  induction l with
  | nil =>
    intro acc p h _
    simp at h
  | cons r0 rest ih =>
    intro acc p h hp
    rw [List.map_cons] at h
    by_cases hp0 : p = r0.file_path
    · subst hp0
      have hstep : mergeStep false acc r0 = (acc.1 ++ [r0], acc.2 ++ [r0.file_path]) := by
        unfold mergeStep
        rw [if_neg hp]
        rfl
      refine ⟨r0, ?_, List.mem_cons_self .., rfl⟩
      show r0 ∈ (rest.foldl (mergeStep false) (mergeStep false acc r0)).1
      rw [hstep]
      exact mergeFold_mem_mono false rest _ r0 (by simp)
    · have h2 : p ∈ rest.map (fun r => r.file_path) := by
        rcases List.mem_cons.mp h with h3 | h3
        · exact absurd h3 hp0
        · exact h3
      have hp' : p ∉ (mergeStep false acc r0).2 := by
        unfold mergeStep
        by_cases hm : r0.file_path ∈ acc.2
        · rw [if_pos hm]
          exact hp
        · rw [if_neg hm]
          intro hq
          rcases List.mem_append.mp hq with hq1 | hq1
          · exact hp hq1
          · exact hp0 (by simpa using hq1)
      obtain ⟨r, hrm, hrl, hrp⟩ := ih (mergeStep false acc r0) p h2 hp'
      exact ⟨r, hrm, List.mem_cons_of_mem _ hrl, hrp⟩

theorem mergeFold_append (sc : Bool) :
    ∀ (l : List SearchResult) (acc : List SearchResult × List Str),
      ∃ t, (l.foldl (mergeStep sc) acc).1 = acc.1 ++ t ∧
        ∀ r ∈ t, ∃ r0 ∈ l, r = (if sc then scaleFaissScore r0 else r0) := by
  intro l
  induction l with
  | nil =>
    intro acc
    exact ⟨[], by simp, by simp⟩
  | cons r0 rest ih =>
    intro acc
    rw [List.foldl_cons]
    by_cases hm : r0.file_path ∈ acc.2
    · have hstep : mergeStep sc acc r0 = acc := by
        unfold mergeStep
        rw [if_pos hm]
      rw [hstep]
      obtain ⟨t, ht1, ht2⟩ := ih acc
      exact ⟨t, ht1, fun r hr => (ht2 r hr).imp (fun r1 h => ⟨List.mem_cons_of_mem _ h.1, h.2⟩)⟩
    · have hstep : mergeStep sc acc r0
          = (acc.1 ++ [if sc then scaleFaissScore r0 else r0], acc.2 ++ [r0.file_path]) := by
        unfold mergeStep
        rw [if_neg hm]
      rw [hstep]
      obtain ⟨t, ht1, ht2⟩ := ih (acc.1 ++ [if sc then scaleFaissScore r0 else r0],
        acc.2 ++ [r0.file_path])
      refine ⟨(if sc then scaleFaissScore r0 else r0) :: t, ?_, ?_⟩
      · rw [ht1]
        simp
      · intro r hr
        rcases List.mem_cons.mp hr with rfl | hr'
        · exact ⟨r0, List.mem_cons_self .., rfl⟩
        · exact (ht2 r hr').imp (fun r1 h => ⟨List.mem_cons_of_mem _ h.1, h.2⟩)

/-- C4: the merge of the keyword and vector partial result lists is a pure
function of those lists with: at most one entry per `file_path` (keyword
entries win collisions), vector entries only for documents absent from the
keyword list and with their score multiplied by 5, the final list sorted by
fused score descending with keyword entries preceding vector entries on
equal scores (stability of the sort plus keyword-first construction), and
the orchestrator's truncation bounded by `top_k`. -/
theorem claim_C4_merge (kw fa : List SearchResult) (top_k : Nat)
    (hk : ∀ r ∈ kw, Assoc.find? searchTypeKey r.metadata = some keywordTag)
    (hf : ∀ r ∈ fa, Assoc.find? searchTypeKey r.metadata = some faissTag) :
    ((mergeSearchResults kw fa).map (fun r => r.file_path)).Nodup ∧
    (∀ p ∈ kw.map (fun r => r.file_path),
      ∃ r ∈ mergeSearchResults kw fa, r ∈ kw ∧ r.file_path = p) ∧
    (∀ r ∈ mergeSearchResults kw fa,
      r ∈ kw ∨ ∃ r0 ∈ fa, r = scaleFaissScore r0 ∧
        r0.file_path ∉ kw.map (fun r' => r'.file_path)) ∧
    ((mergeSearchResults kw fa).take top_k).Pairwise (fun a b =>
      b.score ≤ a.score ∧ (a.score = b.score →
        ¬(Assoc.find? searchTypeKey a.metadata = some faissTag ∧
          Assoc.find? searchTypeKey b.metadata = some keywordTag))) ∧
    ((mergeSearchResults kw fa).take top_k).length ≤ top_k := by
  have htagne : keywordTag ≠ faissTag := by decide
  have hms : mergeSearchResults kw fa
      = sortScoreDesc (fun r => r.score)
          (fa.foldl (mergeStep true) (kw.foldl (mergeStep false) ([], []))).1 := rfl
  have hsrc1 : ∀ r ∈ (kw.foldl (mergeStep false) (([], []) : List SearchResult × List Str)).1,
      r ∈ kw := by
    intro r hr
    rcases mergeFold_mem_src false kw ([], []) r hr with h | ⟨r0, h0, he, _⟩
    · simp at h
    · simp at he
      exact he ▸ h0
  refine ⟨?_, ?_, ?_, ?_, ?_⟩
  · -- no duplicate file paths
    have hpaths1 := mergeFold_paths false kw ([], []) rfl
    have hpaths2 := mergeFold_paths true fa _ hpaths1
    have hnd := mergeFold_nodup true fa _ (mergeFold_nodup false kw ([], []) List.nodup_nil)
    rw [hpaths2] at hnd
    rw [hms]
    exact (((sortScoreDesc_perm (fun r : SearchResult => r.score) _).map
      (fun r => r.file_path)).nodup_iff).mpr hnd
  · -- every keyword document survives with a keyword entry
    intro p hp
    obtain ⟨r, hrm, hrkw, hrp⟩ := mergeFold_entry kw ([], []) p hp (by simp)
    refine ⟨r, ?_, hrkw, hrp⟩
    rw [hms]
    exact mem_sortScoreDesc.mpr (mergeFold_mem_mono true fa _ r hrm)
  · -- provenance of every merged entry
    intro r hr
    rw [hms] at hr
    have hr2 := mem_sortScoreDesc.mp hr
    rcases mergeFold_mem_src true fa _ r hr2 with h | ⟨r0, h0, he, hp⟩
    · exact Or.inl (hsrc1 r h)
    · simp only [if_true] at he
      refine Or.inr ⟨r0, h0, by simpa using he, ?_⟩
      intro hq
      exact hp (mergeFold_path_covered false kw ([], []) _ hq)
  · -- sorted descending, keyword-before-vector on ties
    obtain ⟨t, ht1, ht2⟩ := mergeFold_append true fa (kw.foldl (mergeStep false) ([], []))
    have htags2 : ∀ r ∈ t, Assoc.find? searchTypeKey r.metadata = some faissTag := by
      intro r hr
      obtain ⟨r0, h0, he⟩ := ht2 r hr
      simp only [if_true] at he
      subst he
      rw [scaleFaissScore_metadata]
      exact hf r0 h0
    have hQ : (fa.foldl (mergeStep true) (kw.foldl (mergeStep false) ([], []))).1.Pairwise
        (fun a b => a.score = b.score →
          ¬(Assoc.find? searchTypeKey a.metadata = some faissTag ∧
            Assoc.find? searchTypeKey b.metadata = some keywordTag)) := by
      rw [ht1]
      rw [List.pairwise_append]
      refine ⟨?_, ?_, ?_⟩
      · refine List.pairwise_of_forall_mem_list ?_
        intro a ha b _ _ hc
        have := hk a (hsrc1 a ha)
        rw [this] at hc
        exact htagne (Option.some.inj hc.1)
      · refine List.pairwise_of_forall_mem_list ?_
        intro a _ b hb _ hc
        have := htags2 b hb
        rw [this] at hc
        exact htagne (Option.some.inj hc.2).symm
      · intro a ha b _ _ hc
        have := hk a (hsrc1 a ha)
        rw [this] at hc
        exact htagne (Option.some.inj hc.1)
    have hsorted := sortScoreDesc_pairwise (fun r : SearchResult => r.score) _ _ hQ
    rw [hms]
    exact List.Pairwise.sublist (List.take_sublist _ _) hsorted
  · exact List.length_take_le ..

/-- Witness for C4: one keyword result (score 3) and one vector result
(score 1, boosted to 5). -/
theorem claim_C4_witness :
    ((mergeSearchResults [resKw] [resFa]).map (fun r => r.file_path)).Nodup ∧
    (∀ p ∈ [resKw].map (fun r => r.file_path),
      ∃ r ∈ mergeSearchResults [resKw] [resFa], r ∈ [resKw] ∧ r.file_path = p) ∧
    (∀ r ∈ mergeSearchResults [resKw] [resFa],
      r ∈ [resKw] ∨ ∃ r0 ∈ [resFa], r = scaleFaissScore r0 ∧
        r0.file_path ∉ [resKw].map (fun r' => r'.file_path)) ∧
    ((mergeSearchResults [resKw] [resFa]).take 2).Pairwise (fun a b =>
      b.score ≤ a.score ∧ (a.score = b.score →
        ¬(Assoc.find? searchTypeKey a.metadata = some faissTag ∧
          Assoc.find? searchTypeKey b.metadata = some keywordTag))) ∧
    ((mergeSearchResults [resKw] [resFa]).take 2).length ≤ 2 :=
  claim_C4_merge [resKw] [resFa] 2
    (by
      intro r hr
      rw [List.mem_singleton.mp hr]
      rfl)
    (by
      intro r hr
      rw [List.mem_singleton.mp hr]
      rfl)

/-! ## Text lemmas: substring counts, whitespace splitting, tokens -/

theorem countSubstrFuel_pos_iff (pat : Str) (hp : pat ≠ []) :
    ∀ (fuel : Nat) (s : Str), s.length ≤ fuel →
      (0 < countSubstrFuel pat fuel s ↔ pat <:+: s) := by
  intro fuel
  induction fuel with
  | zero =>
    intro s hs
    cases s with
    | nil =>
      unfold countSubstrFuel
      simp [hp]
    | cons c cs =>
      simp at hs
  | succ n ih =>
    intro s hs
    cases s with
    | nil =>
      unfold countSubstrFuel
      simp [hp]
    | cons c cs =>
      unfold countSubstrFuel
      by_cases hpre : pat.isPrefixOf (c :: cs)
      · rw [if_pos hpre]
        constructor
        · intro _
          exact (List.isPrefixOf_iff_prefix.mp hpre).isInfix
        · intro _
          omega
      · rw [if_neg hpre]
        rw [ih cs (by simp at hs; omega)]
        constructor
        · intro h
          exact List.infix_cons_iff.mpr (Or.inr h)
        · intro h
          rcases List.infix_cons_iff.mp h with h1 | h1
          · exact absurd (List.isPrefixOf_iff_prefix.mpr h1) hpre
          · exact h1

theorem countSubstr_pos_iff (pat s : Str) (hp : pat ≠ []) :
    0 < countSubstr pat s ↔ pat <:+: s := by
  unfold countSubstr
  rw [if_neg hp]
  exact countSubstrFuel_pos_iff pat hp s.length s (le_refl _)

theorem mem_splitWsAux_within :
    ∀ (s acc w : Str), w ∈ splitWsAux s acc → w <:+: (acc.reverse ++ s) := by
  intro s
  induction s with
  | nil =>
    intro acc w h
    unfold splitWsAux at h
    by_cases ha : acc = []
    · rw [if_pos ha] at h
      simp at h
    · rw [if_neg ha] at h
      rw [List.mem_singleton.mp h]
      exact (List.prefix_append _ _).isInfix
  | cons c cs ih =>
    intro acc w h
    unfold splitWsAux at h
    by_cases hw : c.isWhitespace
    · rw [if_pos hw] at h
      have htail : w ∈ splitWsAux cs [] → w <:+: acc.reverse ++ c :: cs := by
        intro hm
        have h1 : w <:+: cs := by simpa using ih [] w hm
        have h2 : cs <:+: acc.reverse ++ c :: cs := by
          have : cs <:+ c :: cs := List.suffix_cons c cs
          exact (this.isInfix).trans (List.suffix_append _ _).isInfix
        exact h1.trans h2
      by_cases ha : acc = []
      · rw [if_pos ha] at h
        exact htail h
      · rw [if_neg ha] at h
        rcases List.mem_cons.mp h with rfl | hm
        · exact ((List.prefix_append _ _).isInfix)
        · exact htail hm
    · rw [if_neg hw] at h
      have := ih (c :: acc) w h
      rw [List.reverse_cons, List.append_assoc] at this
      simpa using this

theorem mem_splitWs_within {w s : Str} (h : w ∈ splitWs s) : w <:+: s := by
  have := mem_splitWsAux_within s [] w h
  simpa using this

theorem mem_tokenizeAdvanced_length {w : Str} {t : Str} (h : w ∈ tokenizeAdvanced t) :
    2 < w.length := by
  unfold tokenizeAdvanced at h
  have := (List.mem_filter.mp h).2
  simp only [Bool.and_eq_true, decide_eq_true_eq] at this
  exact this.1

theorem mem_tokenizeAdvanced_ne_nil {w : Str} {t : Str} (h : w ∈ tokenizeAdvanced t) :
    w ≠ [] := by
  have := mem_tokenizeAdvanced_length h
  exact List.length_pos.mp (by omega)

theorem positionsOf_ne_nil_mem {w : Str} {text_words : List Str}
    (h : positionsOf w text_words ≠ []) : w ∈ text_words := by
  unfold positionsOf at h
  have h2 : (text_words.enum.filter (fun p => decide (p.2 = w))) ≠ [] := by
    intro he
    rw [he] at h
    simp at h
  obtain ⟨p, hp⟩ := List.exists_mem_of_ne_nil _ h2
  have hmem := List.mem_of_mem_filter hp
  have heq : p.2 = w := by
    have := List.of_mem_filter hp
    simpa using this
  rw [← heq]
  rw [← List.enum_map_snd text_words]
  exact List.mem_map_of_mem Prod.snd hmem

theorem joinSpace_head_start (w : Str) (ws : List Str) :
    w <+: joinSpace (w :: ws) := by
  cases ws with
  | nil => exact List.prefix_refl w
  | cons x xs =>
    show w <+: w ++ ' ' :: joinSpace (x :: xs)
    exact List.prefix_append _ _

theorem filenameScore_nonneg (query file_path : Str) : 0 ≤ filenameScore query file_path := by
  unfold filenameScore
  by_cases h1 : toLowerStr query <:+: toLowerStr (basename file_path)
  · rw [if_pos h1]
    norm_num
  · rw [if_neg h1]
    by_cases h2 : splitWs (toLowerStr query) = []
    · rw [if_pos h2]
    · rw [if_neg h2]
      positivity

theorem proximityPairsSum_eq_zero (text_words : List Str) :
    ∀ query_words : List Str, (∀ w ∈ query_words, positionsOf w text_words = []) →
      proximityPairsSum text_words query_words = 0 := by
  intro query_words
  induction query_words with
  | nil =>
    intro _
    rfl
  | cons w1 rest ih =>
    intro h
    unfold proximityPairsSum
    rw [ih (fun w hw => h w (List.mem_cons_of_mem _ hw))]
    rw [List.sum_eq_zero, add_zero]
    intro x hx
    obtain ⟨w2, _, rfl⟩ := List.mem_map.mp hx
    unfold pairProximity
    rw [if_neg]
    intro hc
    exact hc.1 (h w1 (List.mem_cons_self ..))

/-- If no query word occurs in the chunk text as a substring, every text
component of `_calculate_advanced_score` vanishes; a positive score then
comes from the filename bonus. -/
theorem calculateAdvancedScore_pos_source (e : Engine) (query_words : List Str)
    (text file_path : Str) (hne : query_words ≠ [])
    (hwne : ∀ w ∈ query_words, w ≠ [])
    (hpos : 0 < calculateAdvancedScore e query_words text file_path) :
    (∃ w ∈ query_words, w <:+: text) ∨
      0 < filenameScore (joinSpace query_words) file_path := by
  by_contra hcon
  push_neg at hcon
  obtain ⟨hnoword, hfname⟩ := hcon
  have hs1 : ¬(joinSpace query_words <:+: text) := by
    intro hinf
    obtain ⟨w0, rest, rfl⟩ := List.exists_cons_of_ne_nil hne
    exact hnoword w0 (List.mem_cons_self ..)
      (((joinSpace_head_start w0 rest).isInfix).trans hinf)
  have hs2 : tfidfScore e query_words text (splitWs text) = 0 := by
    unfold tfidfScore
    refine List.sum_eq_zero ?_
    intro x hx
    obtain ⟨w, hw, rfl⟩ := List.mem_map.mp hx
    have hcnt : ¬(0 < countSubstr w text) := by
      intro hc
      exact hnoword w hw ((countSubstr_pos_iff w text (hwne w hw)).mp hc)
    simp only [if_neg hcnt]
  have hpositions : ∀ w ∈ query_words, positionsOf w (splitWs text) = [] := by
    intro w hw
    by_contra hp
    exact hnoword w hw (mem_splitWs_within (positionsOf_ne_nil_mem hp))
  have hs3 : proximityScore query_words (splitWs text) = 0 := by
    unfold proximityScore
    by_cases hq2 : query_words.length < 2
    · rw [if_pos hq2]
    · rw [if_neg hq2]
      exact proximityPairsSum_eq_zero _ query_words hpositions
  have hs4 : filenameScore (joinSpace query_words) file_path = 0 :=
    le_antisymm hfname (filenameScore_nonneg ..)
  have hs5 : multiWordBonus query_words text = 0 := by
    unfold multiWordBonus
    by_cases hq2 : 1 < query_words.length
    · rw [if_pos hq2]
      have hcp : query_words.countP (fun w => decide (w <:+: text)) = 0 := by
        rw [List.countP_eq_zero]
        intro w hw
        simp only [decide_eq_true_eq]
        exact hnoword w hw
      rw [hcp]
      norm_num
    · rw [if_neg hq2]
  simp only [calculateAdvancedScore, if_neg hs1, hs2, hs3, hs4, hs5] at hpos
  norm_num at hpos

/-- The best-chunk fold of `_keyword_search_sync`: the resulting score is
either the initial 0 or the advanced score of one of the chunks. -/
theorem scoreDocument_score_cases (e : Engine) (query_words : List Str) (query : Str)
    (file_path : Str) (chunks : List Chunk) :
    (scoreDocument e query_words query file_path chunks).score = 0 ∨
    ∃ c ∈ chunks, (scoreDocument e query_words query file_path chunks).score
      = calculateAdvancedScore e query_words c.text file_path := by
  unfold scoreDocument
  suffices h : ∀ (l : List Chunk) (best : DocScore),
      (l.foldl (scoreDocStep e query_words query file_path) best).score = best.score ∨
      ∃ c ∈ l, (l.foldl (scoreDocStep e query_words query file_path) best).score
        = calculateAdvancedScore e query_words c.text file_path by
    exact h chunks { score := 0, chunk_id := none, snippet := [] }
  intro l
  induction l with
  | nil =>
    intro best
    exact Or.inl rfl
  | cons c rest ih =>
    intro best
    rw [List.foldl_cons]
    by_cases hlt : best.score < calculateAdvancedScore e query_words c.text file_path
    · have hstep : scoreDocStep e query_words query file_path best c
          = { score := calculateAdvancedScore e query_words c.text file_path,
              chunk_id := some c.chunk_id, snippet := extractSnippet c.original_text query } := by
        unfold scoreDocStep
        rw [if_pos hlt]
      rw [hstep]
      rcases ih _ with h1 | h1
      · exact Or.inr ⟨c, List.mem_cons_self .., h1⟩
      · obtain ⟨c', hc', he⟩ := h1
        exact Or.inr ⟨c', List.mem_cons_of_mem _ hc', he⟩
    · have hstep : scoreDocStep e query_words query file_path best c = best := by
        unfold scoreDocStep
        rw [if_neg hlt]
      rw [hstep]
      rcases ih best with h1 | h1
      · exact Or.inl h1
      · obtain ⟨c', hc', he⟩ := h1
        exact Or.inr ⟨c', List.mem_cons_of_mem _ hc', he⟩

/-- C9 (amended): a document returned by the keyword branch either has a
chunk whose text contains some query token as a substring, or its file name
matches the query (positive `_filename_score`).  The original claim — that a
document with no query term in any chunk text is never returned — fails
because of the filename bonus; see the counterexample. -/
theorem claim_C9_amended (e : Engine) (query : Str) (top_k : Nat) (r : SearchResult)
    (hr : r ∈ keywordSearchSync e query top_k) :
    ∃ chunks, (r.file_path, chunks) ∈ e.corpus ∧
      ((∃ c ∈ chunks, ∃ w ∈ tokenizeAdvanced (toLowerStr query), w <:+: c.text) ∨
       0 < filenameScore (joinSpace (tokenizeAdvanced (toLowerStr query))) r.file_path) := by
  unfold keywordSearchSync at hr
  by_cases hq : tokenizeAdvanced (toLowerStr query) = []
  · rw [if_pos hq] at hr
    simp at hr
  · rw [if_neg hq] at hr
    obtain ⟨p, hp_take, hmk⟩ := List.mem_map.mp hr
    have hp_sort := List.mem_of_mem_take hp_take
    have hp_docs := mem_sortScoreDesc.mp hp_sort
    obtain ⟨doc, hdoc, hsome⟩ := List.mem_filterMap.mp hp_docs
    by_cases hscore : 0 < (scoreDocument e (tokenizeAdvanced (toLowerStr query)) query
        doc.1 doc.2).score
    · rw [if_pos hscore] at hsome
      obtain rfl := Option.some.inj hsome
      have hfp : r.file_path = doc.1 := by
        rw [← hmk]
      refine ⟨doc.2, ?_, ?_⟩
      · rw [hfp]
        exact hdoc
      · rcases scoreDocument_score_cases e (tokenizeAdvanced (toLowerStr query)) query
            doc.1 doc.2 with h0 | ⟨c, hc, he⟩
        · rw [h0] at hscore
          exact absurd hscore (lt_irrefl 0)
        · rw [he] at hscore
          rcases calculateAdvancedScore_pos_source e _ c.text doc.1 hq
              (fun w hw => mem_tokenizeAdvanced_ne_nil hw) hscore with h1 | h1
          · obtain ⟨w, hw, hinf⟩ := h1
            exact Or.inl ⟨c, hc, w, hw, hinf⟩
          · rw [hfp]
            exact Or.inr h1
    · rw [if_neg hscore] at hsome
      exact Option.noConfusion hsome

/-! ## Concrete evaluation of the keyword branch -/

theorem calcScore_alpha :
    calculateAdvancedScore engineAlpha ["alpha".toList] chunkAlpha.text ("doc.txt".toList)
      = 10 := by
  have hlog : Real.log ((engineAlpha.corpus.length : ℝ)
      / (((Assoc.find? ("alpha".toList) engineAlpha.docFreqs).getD 1 : ℕ) : ℝ)) = 0 := by
    rw [show engineAlpha.corpus.length = 1 from rfl]
    rw [show Assoc.find? ("alpha".toList) engineAlpha.docFreqs = some 1 from by decide]
    norm_num [Real.log_one]
  have h2 : tfidfScore engineAlpha ["alpha".toList] chunkAlpha.text (splitWs chunkAlpha.text)
      = 0 := by
    unfold tfidfScore
    rw [List.map_cons, List.map_nil]
    rw [show countSubstr ("alpha".toList) chunkAlpha.text = 1 from by decide]
    rw [if_pos (by norm_num : 0 < 1)]
    rw [List.sum_cons, List.sum_nil]
    simp only [hlog]
    norm_num
  have hph : joinSpace [("alpha".toList)] <:+: chunkAlpha.text := by decide
  have hprox : proximityScore [("alpha".toList)] (splitWs chunkAlpha.text) = 0 := by
    norm_num [proximityScore]
  have hfn : filenameScore (joinSpace [("alpha".toList)]) ("doc.txt".toList) = 0 := by
    unfold filenameScore
    rw [if_neg (by decide : ¬(toLowerStr (joinSpace [("alpha".toList)])
      <:+: toLowerStr (basename ("doc.txt".toList))))]
    rw [if_neg (by decide : ¬(splitWs (toLowerStr (joinSpace [("alpha".toList)])) = []))]
    rw [show (splitWs (toLowerStr (joinSpace [("alpha".toList)]))).countP
      (fun w => decide (w <:+: toLowerStr (basename ("doc.txt".toList)))) = 0 from by decide]
    norm_num
  have hmw : multiWordBonus [("alpha".toList)] chunkAlpha.text = 0 := by
    norm_num [multiWordBonus]
  simp only [calculateAdvancedScore, if_pos hph, h2, hprox, hfn, hmw]
  norm_num

theorem scoreDocument_alpha :
    scoreDocument engineAlpha ["alpha".toList] ("alpha".toList) ("doc.txt".toList) [chunkAlpha]
      = { score := 10, chunk_id := some ("c1".toList), snippet := "alpha beta".toList } := by
  unfold scoreDocument
  rw [List.foldl_cons, List.foldl_nil]
  unfold scoreDocStep
  simp only [calcScore_alpha]
  rw [if_pos (by norm_num :
    ({ score := 0, chunk_id := none, snippet := [] } : DocScore).score < (10 : ℝ))]
  rw [show extractSnippet chunkAlpha.original_text ("alpha".toList) = "alpha beta".toList
    from by decide]
  rfl

theorem keywordSearchSync_engineAlpha :
    keywordSearchSync engineAlpha ("alpha".toList) 10 = [resAlpha] := by
  have htok : tokenizeAdvanced (toLowerStr ("alpha".toList)) = [("alpha".toList)] := by decide
  have hfn2 : filenameScore ("alpha".toList) ("doc.txt".toList) = 0 := by
    unfold filenameScore
    rw [if_neg (by decide :
      ¬(toLowerStr ("alpha".toList) <:+: toLowerStr (basename ("doc.txt".toList))))]
    rw [if_neg (by decide : ¬(splitWs (toLowerStr ("alpha".toList)) = []))]
    rw [show (splitWs (toLowerStr ("alpha".toList))).countP
      (fun w => decide (w <:+: toLowerStr (basename ("doc.txt".toList)))) = 0 from by decide]
    norm_num
  unfold keywordSearchSync
  rw [htok]
  rw [if_neg (show ¬([("alpha".toList)] : List Str) = [] from by decide)]
  simp only [show engineAlpha.corpus = [("doc.txt".toList, [chunkAlpha])] from rfl,
    List.filterMap_cons, List.filterMap_nil, scoreDocument_alpha]
  norm_num [sortScoreDesc, insertScoreDesc, List.take, resAlpha]
  exact hfn2

theorem mergeSearchResults_nil_nil : mergeSearchResults [] [] = [] := by
  unfold mergeSearchResults
  simp only [List.foldl_nil]
  rfl

theorem mergeSearchResults_single (r : SearchResult) : mergeSearchResults [r] [] = [r] := by
  unfold mergeSearchResults
  simp only [List.foldl_cons, List.foldl_nil]
  have hstep : mergeStep false ([], []) r = ([r], [r.file_path]) := by
    unfold mergeStep
    rw [if_neg (by simp : ¬r.file_path ∈ ([] : List Str))]
    simp
  rw [hstep]
  rfl

theorem keywordSearchSync_empty_query (e : Engine) (top_k : Nat) :
    keywordSearchSync e [] top_k = [] := by
  unfold keywordSearchSync
  rw [show tokenizeAdvanced (toLowerStr ([] : Str)) = [] from rfl, if_pos rfl]

theorem parallelSearch_no_faiss_empty_query (e : Engine) (top_k : Nat)
    (filters : List (Str × Str)) (hf : e.faissAvailable = false) :
    parallelSearch e [] top_k filters = ([], [Branch.keyword]) := by
  unfold parallelSearch
  rw [hf]
  simp only [Bool.false_eq_true, if_false]
  rw [keywordSearchSync_empty_query, mergeSearchResults_nil_nil]
  rw [List.take_nil]

theorem parallelSearch_engineAlpha (filters : List (Str × Str)) :
    parallelSearch engineAlpha ("alpha".toList) 10 filters = ([resAlpha], [Branch.keyword]) := by
  unfold parallelSearch
  rw [show engineAlpha.faissAvailable = false from rfl]
  simp only [Bool.false_eq_true, if_false]
  rw [keywordSearchSync_engineAlpha, mergeSearchResults_single]
  rfl

/-- C7 counterexample: the enterprise `Search` path accepts a filter map but
never applies it — for the query `alpha` with a `department = sales` filter
it returns a result whose metadata violates the filter. -/
theorem claim_C7_counterexample :
    (parallelSearch engineAlpha ("alpha".toList) 10 deptFilters).1 = [resAlpha] ∧
    matchFilters resAlpha.metadata deptFilters = false := by
  constructor
  · rw [parallelSearch_engineAlpha]
  · rfl

/-- C9 witness: for the query `alpha` against `engineAlpha` the returned
document's chunk does contain the query token. -/
theorem claim_C9_witness :
    ∃ chunks, (resAlpha.file_path, chunks) ∈ engineAlpha.corpus ∧
      ((∃ c ∈ chunks, ∃ w ∈ tokenizeAdvanced (toLowerStr ("alpha".toList)), w <:+: c.text) ∨
       0 < filenameScore (joinSpace (tokenizeAdvanced (toLowerStr ("alpha".toList))))
         resAlpha.file_path) :=
  claim_C9_amended engineAlpha ("alpha".toList) 10 resAlpha
    (by rw [keywordSearchSync_engineAlpha]; exact List.mem_singleton.mpr rfl)

/-- C2 (amended): for the empty query the keyword branch IS dispatched but
returns no results; when the vector backend is unavailable the search
returns the empty list with no error; the dispatched branch list is never
empty. -/
theorem claim_C2_amended (e : Engine) (top_k : Nat) (filters : List (Str × Str)) :
    keywordSearchSync e [] top_k = [] ∧
    (parallelSearch e [] top_k filters).2
      = Branch.keyword :: (if e.faissAvailable then [Branch.faiss] else []) ∧
    (e.faissAvailable = false → parallelSearch e [] top_k filters = ([], [Branch.keyword])) :=
  ⟨keywordSearchSync_empty_query e top_k, rfl,
   parallelSearch_no_faiss_empty_query e top_k filters⟩

/-- Witness for C2 (amended) at a concrete keyword-only engine. -/
theorem claim_C2_witness :
    keywordSearchSync engineAlpha [] 5 = [] ∧
    (parallelSearch engineAlpha [] 5 []).2
      = Branch.keyword :: (if engineAlpha.faissAvailable then [Branch.faiss] else []) ∧
    parallelSearch engineAlpha [] 5 [] = ([], [Branch.keyword]) :=
  ⟨(claim_C2_amended engineAlpha 5 []).1, (claim_C2_amended engineAlpha 5 []).2.1,
   (claim_C2_amended engineAlpha 5 []).2.2 rfl⟩

/-- C2 counterexample: for the empty query the orchestrator still dispatches
the keyword branch — the claim that no branches are dispatched is false
(even though the result list is indeed empty and no error is raised). -/
theorem claim_C2_counterexample :
    (parallelSearch engineAlpha [] 10 []).2 ≠ ([] : List Branch) ∧
    parallelSearch engineAlpha [] 10 [] = ([], [Branch.keyword]) := by
  have h := parallelSearch_no_faiss_empty_query engineAlpha 10 [] rfl
  constructor
  · rw [h]
    simp
  · exact h

/-- C1 (amended): `_parallel_search` absorbs branch failures into empty
partial result lists and always returns a result list — it never surfaces
`NoSearchBackendAvailable` (or any error), even when every branch fails. -/
theorem claim_C1_amended (keyword_outcome : Except Str (List SearchResult))
    (faiss_outcome : Option (Except Str (List SearchResult))) (top_k : Nat) :
    (∀ err, parallelSearchOutcomes keyword_outcome faiss_outcome top_k ≠ Except.error err) ∧
    parallelSearchOutcomes keyword_outcome faiss_outcome top_k
      = Except.ok ((mergeSearchResults (branchRecover keyword_outcome)
          (branchRecoverOpt faiss_outcome)).take top_k) ∧
    ((∃ msg, keyword_outcome = Except.error msg) →
      (faiss_outcome = none ∨ ∃ msg, faiss_outcome = some (Except.error msg)) →
      parallelSearchOutcomes keyword_outcome faiss_outcome top_k = Except.ok []) := by
  refine ⟨?_, rfl, ?_⟩
  · intro err h
    exact Except.noConfusion h
  · rintro ⟨msg, rfl⟩ hfa
    have hkw : branchRecover (Except.error msg) = [] := rfl
    have hfa2 : branchRecoverOpt faiss_outcome = [] := by
      rcases hfa with rfl | ⟨msg2, rfl⟩
      · rfl
      · rfl
    unfold parallelSearchOutcomes
    rw [hkw, hfa2, mergeSearchResults_nil_nil]
    rw [List.take_nil]

/-- Witness for C1 (amended): both branches fail, the orchestrator returns
`ok []`. -/
theorem claim_C1_witness :
    (∀ err, parallelSearchOutcomes (Except.error ("boom".toList))
      (some (Except.error ("crash".toList))) 7 ≠ Except.error err) ∧
    parallelSearchOutcomes (Except.error ("boom".toList))
      (some (Except.error ("crash".toList))) 7 = Except.ok [] :=
  ⟨(claim_C1_amended (Except.error ("boom".toList))
      (some (Except.error ("crash".toList))) 7).1,
   (claim_C1_amended (Except.error ("boom".toList))
      (some (Except.error ("crash".toList))) 7).2.2 ⟨_, rfl⟩ (Or.inr ⟨_, rfl⟩)⟩

/-- C1 counterexample: with both branches failed, `_parallel_search` returns
`ok []`, not the claimed `NoSearchBackendAvailable` error. -/
theorem claim_C1_counterexample :
    parallelSearchOutcomes (Except.error ("kw down".toList))
      (some (Except.error ("vec down".toList))) 5 = Except.ok [] ∧
    parallelSearchOutcomes (Except.error ("kw down".toList))
      (some (Except.error ("vec down".toList))) 5
      ≠ Except.error SearchError.noSearchBackendAvailable := by
  have h : parallelSearchOutcomes (Except.error ("kw down".toList))
      (some (Except.error ("vec down".toList))) 5 = Except.ok [] := by
    unfold parallelSearchOutcomes
    rw [show branchRecover (Except.error ("kw down".toList)) = [] from rfl,
      show branchRecoverOpt (some (Except.error ("vec down".toList))) = [] from rfl,
      mergeSearchResults_nil_nil]
    rfl
  exact ⟨h, by rw [h]; exact fun hc => Except.noConfusion hc⟩

theorem calcScore_sec :
    calculateAdvancedScore engineSec ["security".toList] chunkSec.text ("security.txt".toList)
      = 1 := by
  have h2 : tfidfScore engineSec ["security".toList] chunkSec.text (splitWs chunkSec.text)
      = 0 := by
    unfold tfidfScore
    rw [List.map_cons, List.map_nil]
    rw [show countSubstr ("security".toList) chunkSec.text = 0 from by decide]
    rw [if_neg (by norm_num : ¬(0 < 0))]
    rw [List.sum_cons, List.sum_nil]
    norm_num
  have hph : ¬(joinSpace [("security".toList)] <:+: chunkSec.text) := by decide
  have hprox : proximityScore [("security".toList)] (splitWs chunkSec.text) = 0 := by
    norm_num [proximityScore]
  have hfn : filenameScore (joinSpace [("security".toList)]) ("security.txt".toList) = 2 := by
    unfold filenameScore
    rw [if_pos (by decide : toLowerStr (joinSpace [("security".toList)])
      <:+: toLowerStr (basename ("security.txt".toList)))]
  have hmw : multiWordBonus [("security".toList)] chunkSec.text = 0 := by
    norm_num [multiWordBonus]
  simp only [calculateAdvancedScore, if_neg hph, h2, hprox, hfn, hmw]
  norm_num

theorem scoreDocument_sec :
    scoreDocument engineSec ["security".toList] ("security".toList) ("security.txt".toList)
      [chunkSec]
      = { score := 1, chunk_id := some ("c1".toList), snippet := "xyzq wvut".toList } := by
  unfold scoreDocument
  rw [List.foldl_cons, List.foldl_nil]
  unfold scoreDocStep
  simp only [calcScore_sec]
  rw [if_pos (by norm_num :
    ({ score := 0, chunk_id := none, snippet := [] } : DocScore).score < (1 : ℝ))]
  rw [show extractSnippet chunkSec.original_text ("security".toList) = "xyzq wvut".toList
    from by decide]
  rfl

theorem keywordSearchSync_engineSec :
    keywordSearchSync engineSec ("security".toList) 10 = [resSec] := by
  have htok : tokenizeAdvanced (toLowerStr ("security".toList)) = [("security".toList)] := by
    decide
  have hfn2 : filenameScore ("security".toList) ("security.txt".toList) = 2 := by
    unfold filenameScore
    rw [if_pos (by decide : toLowerStr ("security".toList)
      <:+: toLowerStr (basename ("security.txt".toList)))]
  unfold keywordSearchSync
  rw [htok]
  rw [if_neg (show ¬([("security".toList)] : List Str) = [] from by decide)]
  simp only [show engineSec.corpus = [("security.txt".toList, [chunkSec])] from rfl,
    List.filterMap_cons, List.filterMap_nil, scoreDocument_sec]
  norm_num [sortScoreDesc, insertScoreDesc, List.take, resSec]
  exact_mod_cast hfn2

/-- C9 counterexample: the query `security` matches no chunk text of
`engineSec` (its single chunk is `xyzq wvut`), yet the keyword branch
returns the document because its file name `security.txt` matches the
query. -/
theorem claim_C9_counterexample :
    (keywordSearchSync engineSec ("security".toList) 10).map (fun r => r.file_path)
      = ["security.txt".toList] ∧
    (tokenizeAdvanced (toLowerStr ("security".toList))).all
      (fun w => decide (countSubstr w chunkSec.text = 0)) = true := by
  constructor
  · rw [keywordSearchSync_engineSec]
    rfl
  · decide

/-! ## `_build_keyword_index` lemmas (C3) -/

theorem mem_dedupList {w : Str} {ws : List Str} : w ∈ dedupList ws ↔ w ∈ ws := by
  induction ws with
  | nil => simp [dedupList]
  | cons x xs ih =>
    unfold dedupList
    by_cases hx : x ∈ dedupList xs
    · rw [if_pos hx]
      constructor
      · intro h
        exact List.mem_cons_of_mem _ (ih.mp h)
      · intro h
        rcases List.mem_cons.mp h with rfl | h2
        · exact hx
        · exact ih.mpr h2
    · rw [if_neg hx]
      constructor
      · intro h
        rcases List.mem_cons.mp h with rfl | h2
        · exact List.mem_cons_self ..
        · exact List.mem_cons_of_mem _ (ih.mp h2)
      · intro h
        rcases List.mem_cons.mp h with rfl | h2
        · exact List.mem_cons_self ..
        · exact List.mem_cons_of_mem _ (ih.mpr h2)

theorem nodup_dedupList (ws : List Str) : (dedupList ws).Nodup := by
  induction ws with
  | nil => simp [dedupList]
  | cons x xs ih =>
    unfold dedupList
    by_cases hx : x ∈ dedupList xs
    · rw [if_pos hx]
      exact ih
    · rw [if_neg hx]
      exact List.nodup_cons.mpr ⟨hx, ih⟩

theorem bumpDocFreq_find? (w w' : Str) (m : List (Str × Nat)) :
    Assoc.find? w' (bumpDocFreq w m)
      = if w' = w then some ((Assoc.find? w m).getD 0 + 1) else Assoc.find? w' m := by
  induction m with
  | nil =>
    by_cases h : w' = w
    · subst h
      simp [bumpDocFreq, Assoc.find?]
    · have h2 : ¬(w = w') := fun e => h e.symm
      simp [bumpDocFreq, Assoc.find?, h, h2]
  | cons p rest ih =>
    obtain ⟨k, n⟩ := p
    by_cases hk : k = w
    · subst hk
      by_cases h : w' = k
      · subst h
        simp [bumpDocFreq, Assoc.find?]
      · have h2 : ¬(k = w') := fun e => h e.symm
        simp [bumpDocFreq, Assoc.find?, h, h2]
    · by_cases h : w' = k
      · subst h
        have hne : ¬(w' = w) := fun e => hk (by rw [e])
        simp [bumpDocFreq, Assoc.find?, hk, hne]
      · have h2 : ¬(k = w') := fun e => h e.symm
        have hkw : ¬(k = w) := hk
        simp only [bumpDocFreq, if_neg hkw, Assoc.find?, if_neg h2]
        rw [ih]

theorem foldBump_find? (ws : List Str) (hnd : ws.Nodup) :
    ∀ (m : List (Str × Nat)) (w : Str),
      Assoc.find? w (ws.foldl (fun m w => bumpDocFreq w m) m)
        = if w ∈ ws then some ((Assoc.find? w m).getD 0 + 1) else Assoc.find? w m := by
  induction ws with
  | nil =>
    intro m w
    simp
  | cons w0 rest ih =>
    intro m w
    rw [List.foldl_cons]
    rw [ih (List.nodup_cons.mp hnd).2]
    by_cases hw : w ∈ rest
    · rw [if_pos hw, if_pos (List.mem_cons_of_mem _ hw)]
      have hne : ¬(w = w0) := by
        rintro rfl
        exact (List.nodup_cons.mp hnd).1 hw
      rw [bumpDocFreq_find?, if_neg hne]
    · rw [if_neg hw]
      rw [bumpDocFreq_find?]
      by_cases hw0 : w = w0
      · subst hw0
        rw [if_pos rfl, if_pos (List.mem_cons_self ..)]
      · rw [if_neg hw0, if_neg (by simp [hw0, hw])]

theorem appendChunkAt_keys (fp : Str) (c : Chunk) (l : List (Str × List Chunk)) :
    Assoc.keys (appendChunkAt fp c l)
      = if fp ∈ Assoc.keys l then Assoc.keys l else Assoc.keys l ++ [fp] := by
  induction l with
  | nil => simp [appendChunkAt, Assoc.keys]
  | cons p rest ih =>
    obtain ⟨k, cs⟩ := p
    by_cases h : k = fp
    · subst h
      simp [appendChunkAt, Assoc.keys_cons]
    · have h2 : ¬(fp = k) := fun e => h e.symm
      simp only [appendChunkAt, if_neg h, Assoc.keys_cons, ih, List.mem_cons]
      by_cases hm : fp ∈ Assoc.keys rest
      · simp [hm, h2]
      · simp [hm, h2]

theorem buildFold_corpus_keys (cs : List RawChunk) :
    ∀ st : List (Str × List Chunk) × List (Str × Nat),
      (Assoc.keys st.1).Nodup →
      (Assoc.keys (cs.foldl buildStep st).1).Nodup ∧
      (Assoc.keys (cs.foldl buildStep st).1).toFinset
        = (Assoc.keys st.1).toFinset ∪ (cs.map (fun rc => rc.file_path)).toFinset := by
  induction cs with
  | nil =>
    intro st h
    simp [h]
  | cons rc rest ih =>
    intro st h
    rw [List.foldl_cons]
    have hkeys : Assoc.keys (buildStep st rc).1
        = if rc.file_path ∈ Assoc.keys st.1 then Assoc.keys st.1
          else Assoc.keys st.1 ++ [rc.file_path] := by
      unfold buildStep
      exact appendChunkAt_keys ..
    have hnd1 : (Assoc.keys (buildStep st rc).1).Nodup := by
      rw [hkeys]
      by_cases hm : rc.file_path ∈ Assoc.keys st.1
      · rw [if_pos hm]
        exact h
      · rw [if_neg hm]
        rw [List.nodup_append]
        exact ⟨h, List.nodup_singleton _, by
          intro a ha hb
          simp at hb
          subst hb
          exact hm ha⟩
    obtain ⟨hnd2, hfin⟩ := ih (buildStep st rc) hnd1
    refine ⟨hnd2, ?_⟩
    rw [hfin, hkeys]
    by_cases hm : rc.file_path ∈ Assoc.keys st.1
    · rw [if_pos hm]
      ext x
      simp only [Finset.mem_union, List.mem_toFinset, List.map_cons, List.mem_cons]
      constructor
      · rintro (hx | hx)
        · exact Or.inl hx
        · exact Or.inr (Or.inr hx)
      · rintro (hx | rfl | hx)
        · exact Or.inl hx
        · exact Or.inl hm
        · exact Or.inr hx
    · rw [if_neg hm]
      ext x
      simp only [Finset.mem_union, List.mem_toFinset, List.mem_append, List.mem_singleton,
        List.map_cons, List.mem_cons]
      tauto

theorem buildKeywordIndex_corpus_length (chunks : List RawChunk) :
    (buildKeywordIndex chunks).1.length = numDocuments chunks := by
  unfold buildKeywordIndex
  obtain ⟨hnd, hfin⟩ := buildFold_corpus_keys chunks ([], []) (by simp [Assoc.keys])
  have hlen : (List.foldl buildStep ([], []) chunks).1.length
      = (Assoc.keys (List.foldl buildStep ([], []) chunks).1).length := by
    unfold Assoc.keys
    rw [List.length_map]
  rw [hlen, ← List.toFinset_card_of_nodup hnd, hfin]
  unfold numDocuments
  simp [Assoc.keys]

theorem buildFold_docFreq (cs : List RawChunk) :
    ∀ (st : List (Str × List Chunk) × List (Str × Nat)) (w : Str),
      Assoc.find? w (cs.foldl buildStep st).2
        = if 0 < cs.countP (fun rc => decide (w ∈ tokenizeAdvanced (toLowerStr rc.text))) then
            some ((Assoc.find? w st.2).getD 0
              + cs.countP (fun rc => decide (w ∈ tokenizeAdvanced (toLowerStr rc.text))))
          else Assoc.find? w st.2 := by
  induction cs with
  | nil =>
    intro st w
    simp
  | cons rc rest ih =>
    intro st w
    rw [List.foldl_cons]
    rw [ih (buildStep st rc) w]
    have hstep : Assoc.find? w (buildStep st rc).2
        = if w ∈ tokenizeAdvanced (toLowerStr rc.text) then
            some ((Assoc.find? w st.2).getD 0 + 1)
          else Assoc.find? w st.2 := by
      unfold buildStep
      rw [foldBump_find? _ (nodup_dedupList _)]
      by_cases hw : w ∈ tokenizeAdvanced (toLowerStr rc.text)
      · rw [if_pos (mem_dedupList.mpr hw), if_pos hw]
      · rw [if_neg (fun h => hw (mem_dedupList.mp h)), if_neg hw]
    have hcons : (rc :: rest).countP
          (fun rc => decide (w ∈ tokenizeAdvanced (toLowerStr rc.text)))
        = rest.countP (fun rc => decide (w ∈ tokenizeAdvanced (toLowerStr rc.text)))
          + (if w ∈ tokenizeAdvanced (toLowerStr rc.text) then 1 else 0) := by
      rw [List.countP_cons]
      by_cases hw : w ∈ tokenizeAdvanced (toLowerStr rc.text)
      · simp [hw]
      · simp [hw]
    rw [hcons, hstep]
    by_cases hw : w ∈ tokenizeAdvanced (toLowerStr rc.text)
    · rw [if_pos hw, if_pos hw]
      simp only [Option.getD_some]
      by_cases hr : 0 < rest.countP
          (fun rc => decide (w ∈ tokenizeAdvanced (toLowerStr rc.text)))
      · rw [if_pos hr, if_pos (by omega)]
        congr 1
        omega
      · have hz : rest.countP (fun rc => decide (w ∈ tokenizeAdvanced (toLowerStr rc.text)))
            = 0 := by omega
        rw [if_neg hr, hz]
        rw [if_pos (by omega)]
    · rw [if_neg hw, if_neg hw]
      simp

theorem buildKeywordIndex_docFreq (chunks : List RawChunk) (w : Str) :
    (Assoc.find? w (buildKeywordIndex chunks).2).getD 1 = chunkFrequency chunks w := by
  unfold buildKeywordIndex chunkFrequency
  rw [buildFold_docFreq chunks ([], []) w]
  by_cases h : 0 < chunks.countP (fun rc => decide (w ∈ tokenizeAdvanced (toLowerStr rc.text)))
  · rw [if_pos h]
    rw [if_neg (by omega)]
    simp [Assoc.find?]
  · rw [if_neg h]
    rw [if_pos (by omega)]
    simp [Assoc.find?]

/-- C3 (amended): on an engine whose keyword state is built by
`_build_keyword_index`, the per-term component of the lexical score equals
the sum over query terms present of `tf * idf * 2` with
`tf = termCount/chunkLength` and `idf = ln(totalDocuments/docFreq[term])`,
where `totalDocuments` is the number of DISTINCT DOCUMENTS of the corpus
(not the total chunk count the claim states) and `docFreq[term]` counts the
CHUNKS containing the term (default 1 for unseen terms). -/
theorem claim_C3_amended (chunks : List RawChunk) (avail : Bool)
    (oracle : Str → Nat → List (ℝ × Int)) (meta : List FaissMeta)
    (query_words : List Str) (text : Str) (text_words : List Str) :
    tfidfScore (engineOfChunks chunks avail oracle meta) query_words text text_words
      = specTermScoreAmended chunks query_words text text_words := by
  unfold tfidfScore specTermScoreAmended
  refine congrArg List.sum (List.map_congr_left ?_)
  intro w _
  by_cases hc : 0 < countSubstr w text
  · rw [if_pos hc, if_pos hc]
    have hdocs : (engineOfChunks chunks avail oracle meta).corpus.length
        = numDocuments chunks := buildKeywordIndex_corpus_length chunks
    have hfreq : (Assoc.find? w (engineOfChunks chunks avail oracle meta).docFreqs).getD 1
        = chunkFrequency chunks w := buildKeywordIndex_docFreq chunks w
    rw [hdocs, hfreq]
  · rw [if_neg hc, if_neg hc]

/-- C3 counterexample: one document split into two chunks; `alpha` occurs in
one chunk.  The code's idf is `ln(1/1) = 0` (corpus has ONE document), the
claim's idf is `ln(2/1) = ln 2 > 0` (the corpus has TWO chunks), so the
per-term component differs from the claimed formula. -/
theorem claim_C3_counterexample :
    tfidfScore engineTwoChunks ["alpha".toList] ("alpha beta".toList)
        (splitWs ("alpha beta".toList))
      ≠ specTermScoreClaimed (totalChunksOf engineTwoChunks) (engineDocFreq engineTwoChunks)
          ["alpha".toList] ("alpha beta".toList) (splitWs ("alpha beta".toList)) := by
  have hcode : tfidfScore engineTwoChunks ["alpha".toList] ("alpha beta".toList)
      (splitWs ("alpha beta".toList)) = 0 := by
    unfold tfidfScore
    rw [List.map_cons, List.map_nil]
    rw [show countSubstr ("alpha".toList) ("alpha beta".toList) = 1 from by decide]
    rw [if_pos (by norm_num : 0 < 1)]
    rw [List.sum_cons, List.sum_nil]
    rw [show engineTwoChunks.corpus.length = 1 from by decide]
    rw [show Assoc.find? ("alpha".toList) engineTwoChunks.docFreqs = some 1 from by decide]
    norm_num [Real.log_one]
  have hclaim : specTermScoreClaimed (totalChunksOf engineTwoChunks)
      (engineDocFreq engineTwoChunks) ["alpha".toList] ("alpha beta".toList)
      (splitWs ("alpha beta".toList)) = Real.log 2 := by
    unfold specTermScoreClaimed
    rw [List.map_cons, List.map_nil]
    rw [show countSubstr ("alpha".toList) ("alpha beta".toList) = 1 from by decide]
    rw [if_pos (by norm_num : 0 < 1)]
    rw [List.sum_cons, List.sum_nil]
    rw [show totalChunksOf engineTwoChunks = 2 from by decide]
    rw [show engineDocFreq engineTwoChunks ("alpha".toList) = 1 from by decide]
    rw [show (splitWs ("alpha beta".toList)).length = 2 from by decide]
    push_cast
    ring
  rw [hcode, hclaim]
  intro h
  have := Real.log_pos (by norm_num : (1:ℝ) < 2)
  rw [← h] at this
  exact lt_irrefl 0 this

end DeepSearch
